import Mathlib

/-!
Verification of the canonical message codec of the ssb repository.

The repository ships the codec's test-suite (`src/repo.go`: tests of
`EncodePreserveOrder`, `signatureRegexp` and `unicodeReplace`), while the
codec implementation itself lives outside `src/`.  Every definition below is
therefore modelled from the specification (spec.md §3-§4) and validated
against the concrete inputs/outputs fixed by the tests in `src/repo.go`.

Byte buffers are embedded as `List Nat` (one element per byte).
-/

namespace Ssb

/-! ### Hex digits and UTF-8 encoding -/

/-- Value of one hexadecimal digit byte (`0-9`, `a-f`, `A-F`), if any. -/
def hexNib (b : Nat) : Option Nat :=
  if 0x30 ≤ b ∧ b ≤ 0x39 then some (b - 0x30)
  else if 0x61 ≤ b ∧ b ≤ 0x66 then some (b - 0x61 + 10)
  else if 0x41 ≤ b ∧ b ≤ 0x46 then some (b - 0x41 + 10)
  else none

/-- Whether a byte is a hexadecimal digit. -/
def isHex (b : Nat) : Bool := (hexNib b).isSome

/-- Numeric value of four hex digit bytes, most significant first
    (digits assumed valid; invalid digits contribute 0). -/
def hexVal4 (a b c d : Nat) : Nat :=
  ((hexNib a).getD 0) * 4096 + ((hexNib b).getD 0) * 256 +
    ((hexNib c).getD 0) * 16 + (hexNib d).getD 0

/-- Numeric value of eight hex digit bytes, most significant first. -/
def hexVal8 (a b c d e f g h : Nat) : Nat :=
  hexVal4 a b c d * 65536 + hexVal4 e f g h

/-- Standard UTF-8 encoding of a code point as a byte list (1-4 bytes). -/
def utf8Encode (c : Nat) : List Nat :=
  if c < 0x80 then [c]
  else if c < 0x800 then [0xC0 + c / 64, 0x80 + c % 64]
  else if c < 0x10000 then
    [0xE0 + c / 4096, 0x80 + c / 64 % 64, 0x80 + c % 64]
  else
    [0xF0 + c / 262144, 0x80 + c / 4096 % 64, 0x80 + c / 64 % 64, 0x80 + c % 64]

/-! ### Legacy Unicode Normalizer

Modelled from the spec (§4.4 `Normalize`), whose implementation
(`unicodeRegexp` / `unicodeReplace`) is not under `src/`: scan for a
backslash, then a literal `u` or `U`, then a run of hex digits - exactly 4
digits for the lowercase marker, 8 or (as a malformed-legacy fallback) 4 for
the uppercase marker; each match is replaced in place by the raw UTF-8
encoding of the code point, the replacement is not rescanned, and anything
that does not match is copied through unchanged. -/

/-- Normalize a byte buffer: rewrite every recognized legacy Unicode escape
    into raw UTF-8, leaving all other bytes unchanged.  Never fails. -/
def normalize : List Nat → List Nat
  | 0x5C :: 0x75 :: a :: b :: c :: d :: rest =>
      if isHex a && isHex b && isHex c && isHex d then
        utf8Encode (hexVal4 a b c d) ++ normalize rest
      else 0x5C :: normalize (0x75 :: a :: b :: c :: d :: rest)
  | 0x5C :: 0x55 :: a :: b :: c :: d :: e :: f :: g :: h :: rest =>
      if isHex a && isHex b && isHex c && isHex d &&
         isHex e && isHex f && isHex g && isHex h then
        utf8Encode (hexVal8 a b c d e f g h) ++ normalize rest
      else if isHex a && isHex b && isHex c && isHex d then
        utf8Encode (hexVal4 a b c d) ++ normalize (e :: f :: g :: h :: rest)
      else 0x5C :: normalize (0x55 :: a :: b :: c :: d :: e :: f :: g :: h :: rest)
  | 0x5C :: 0x55 :: a :: b :: c :: d :: rest =>
      if isHex a && isHex b && isHex c && isHex d then
        utf8Encode (hexVal4 a b c d) ++ normalize rest
      else 0x5C :: normalize (0x55 :: a :: b :: c :: d :: rest)
  | x :: xs => x :: normalize xs
  | [] => []

/-- Whether some position of the buffer begins a recognizable escape
    (the same pattern `normalize` rewrites). -/
def hasEscape : List Nat → Bool
  | 0x5C :: 0x75 :: a :: b :: c :: d :: rest =>
      (isHex a && isHex b && isHex c && isHex d) ||
        hasEscape (0x75 :: a :: b :: c :: d :: rest)
  | 0x5C :: 0x55 :: a :: b :: c :: d :: e :: f :: g :: h :: rest =>
      (isHex a && isHex b && isHex c && isHex d) ||
        hasEscape (0x55 :: a :: b :: c :: d :: e :: f :: g :: h :: rest)
  | 0x5C :: 0x55 :: a :: b :: c :: d :: rest =>
      (isHex a && isHex b && isHex c && isHex d) ||
        hasEscape (0x55 :: a :: b :: c :: d :: rest)
  | _ :: xs => hasEscape xs
  | [] => false

/-- Find-all scan of the escape pattern: the list of matched byte runs, left
    to right, non-overlapping (model of `unicodeRegexp.FindAll`). -/
def findEscapes : List Nat → List (List Nat)
  | 0x5C :: 0x75 :: a :: b :: c :: d :: rest =>
      if isHex a && isHex b && isHex c && isHex d then
        [0x5C, 0x75, a, b, c, d] :: findEscapes rest
      else findEscapes (0x75 :: a :: b :: c :: d :: rest)
  | 0x5C :: 0x55 :: a :: b :: c :: d :: e :: f :: g :: h :: rest =>
      if isHex a && isHex b && isHex c && isHex d &&
         isHex e && isHex f && isHex g && isHex h then
        [0x5C, 0x55, a, b, c, d, e, f, g, h] :: findEscapes rest
      else if isHex a && isHex b && isHex c && isHex d then
        [0x5C, 0x55, a, b, c, d] :: findEscapes (e :: f :: g :: h :: rest)
      else findEscapes (0x55 :: a :: b :: c :: d :: e :: f :: g :: h :: rest)
  | 0x5C :: 0x55 :: a :: b :: c :: d :: rest =>
      if isHex a && isHex b && isHex c && isHex d then
        [0x5C, 0x55, a, b, c, d] :: findEscapes rest
      else findEscapes (0x55 :: a :: b :: c :: d :: rest)
  | _ :: xs => findEscapes xs
  | [] => []

/-! ### Signature extractor

Modelled from the spec (§4.3 `ExtractAndStrip`), whose implementation
(`signatureRegexp`) is not under `src/`: on a canonically encoded buffer
(2-space indent, one field per line) locate the first occurrence of

  `,` newline two-spaces `"signature": "` value `"`

where the value is a nonempty run of base64/algorithm-tag bytes
(`A-Z a-z 0-9 / + = .`), remove the whole match (separator comma included)
and return the captured value without its quotes.  The byte pattern is the
one exercised by `TestStripSignature` in `src/repo.go`. -/

/-- Whether a byte may occur in a signature value (base64 plus `=` padding,
    `/`, `+`, and the `.sig.ed25519`-style suffix dot). -/
def base64Byte (b : Nat) : Bool :=
  (0x41 ≤ b && b ≤ 0x5A) || (0x61 ≤ b && b ≤ 0x7A) || (0x30 ≤ b && b ≤ 0x39) ||
    b == 0x2F || b == 0x2B || b == 0x3D || b == 0x2E

/-- The bytes of the key `signature`. -/
def sigKeyBytes : List Nat := [0x73, 0x69, 0x67, 0x6E, 0x61, 0x74, 0x75, 0x72, 0x65]

/-- Fixed part of the signature-field pattern: comma, newline, two spaces,
    quoted `signature` key, colon, space. -/
def sigMark : List Nat := [0x2C, 0x0A, 0x20, 0x20, 0x22] ++ sigKeyBytes ++ [0x22, 0x3A, 0x20]

/-- Boolean test that the first argument is an initial run of the second. -/
def startsWith : List Nat → List Nat → Bool
  | [], _ => true
  | _ :: _, [] => false
  | p :: ps, x :: xs => p == x && startsWith ps xs

/-- Remove a literal initial run, if present. -/
def dropStart : List Nat → List Nat → Option (List Nat)
  | [], l => some l
  | _ :: _, [] => none
  | p :: ps, x :: xs => if p == x then dropStart ps xs else none

/-- Longest initial run of signature-value bytes, and the remainder. -/
def spanB64 : List Nat → List Nat × List Nat
  | b :: r =>
      if base64Byte b then
        match spanB64 r with
        | (run, rest) => (b :: run, rest)
      else ([], b :: r)
  | [] => ([], [])

/-- Try to match the full signature-field pattern at the head of the buffer;
    on success return the captured value and the bytes after the match. -/
def matchSigAt (l : List Nat) : Option (List Nat × List Nat) :=
  match dropStart sigMark l with
  | none => none
  | some r =>
    match r with
    | 0x22 :: r1 =>
      match spanB64 r1 with
      | (run, 0x22 :: r2) => if run.isEmpty then none else some (run, r2)
      | _ => none
    | _ => none

/-- Scan for the leftmost signature-field match; return the buffer with the
    match removed, and the captured signature value. -/
def findSig : List Nat → Option (List Nat × List Nat)
  | [] => none
  | x :: xs =>
    match matchSigAt (x :: xs) with
    | some (run, rest) => some (rest, run)
    | none =>
      match findSig xs with
      | some (stripped, run) => some (x :: stripped, run)
      | none => none

/-- Whether the fixed signature-field pattern occurs anywhere in the buffer. -/
def occursSig : List Nat → Bool
  | [] => false
  | x :: xs => startsWith sigMark (x :: xs) || occursSig xs

/-- Error taxonomy of the codec (spec §7). -/
inductive CodecError where
  | EmptyInput
  | MalformedJSON
  | SignatureFieldMissing
  | SignatureFieldMalformed
deriving DecidableEq

/-- Modelled from the spec: `ExtractAndStrip(bytes)` detaches the signature
    field from a canonically encoded buffer, returning the unsigned bytes and
    the captured signature (quotes stripped, no further decoding). -/
def ExtractAndStrip (l : List Nat) : Except CodecError (List Nat × List Nat) :=
  match findSig l with
  | some (stripped, run) => .ok (stripped, run)
  | none =>
      if occursSig l then .error .SignatureFieldMalformed
      else .error .SignatureFieldMissing

/-! ### Ordered value model (spec §3) -/

mutual
/-- Ordered JSON value: object key order is insertion order, numbers keep
    their source text, strings hold decoded UTF-8 bytes. -/
inductive JValue where
  | null
  | bool (b : Bool)
  | num (s : List Nat)
  | str (s : List Nat)
  | arr (es : JArr)
  | obj (ms : JObj)
/-- Ordered sequence of array elements. -/
inductive JArr where
  | nil
  | cons (hd : JValue) (tl : JArr)
/-- Ordered sequence of object entries (key bytes, value). -/
inductive JObj where
  | nil
  | cons (k : List Nat) (v : JValue) (tl : JObj)
end

/-- Byte for one lowercase hex digit. -/
def hexDigitByte (n : Nat) : Nat := if n < 10 then 0x30 + n else 0x61 + (n - 10)

/-- Minimal JSON string escaping (spec §4.2): quote, backslash, and control
    bytes below 0x20 (as `\u00xx`); everything else is emitted raw. -/
def escapeByte (b : Nat) : List Nat :=
  if b == 0x22 then [0x5C, 0x22]
  else if b == 0x5C then [0x5C, 0x5C]
  else if b < 0x20 then [0x5C, 0x75, 0x30, 0x30, hexDigitByte (b / 16), hexDigitByte (b % 16)]
  else [b]

/-- Escape a whole string body. -/
def escapeStr : List Nat → List Nat
  | [] => []
  | b :: r => escapeByte b ++ escapeStr r

/-- Bytes of `n` spaces. -/
def indentB (n : Nat) : List Nat := List.replicate n 0x20

/-! ### Canonical encoder (spec §4.2)

Object entries are separated by `,` and a newline, each line indented two
spaces per nesting level, with `"key": value` and a single space after the
colon; arrays are formatted analogously, one element per line. -/

mutual
/-- Encode a value whose surrounding lines are indented `2*lvl` spaces. -/
def encVal : JValue → Nat → List Nat
  | .null, _ => [0x6E, 0x75, 0x6C, 0x6C]
  | .bool true, _ => [0x74, 0x72, 0x75, 0x65]
  | .bool false, _ => [0x66, 0x61, 0x6C, 0x73, 0x65]
  | .num s, _ => s
  | .str s, _ => 0x22 :: (escapeStr s ++ [0x22])
  | .arr .nil, _ => [0x5B, 0x5D]
  | .arr (.cons x xs), lvl =>
      0x5B :: ((0x0A :: (indentB (2*(lvl+1)) ++ encVal x (lvl+1))) ++
        (sepItems xs (lvl+1) ++ (0x0A :: (indentB (2*lvl) ++ [0x5D]))))
  | .obj .nil, _ => [0x7B, 0x7D]
  | .obj (.cons k v ps), lvl =>
      0x7B :: ((0x0A :: (indentB (2*(lvl+1)) ++
          (0x22 :: (escapeStr k ++ (0x22 :: 0x3A :: 0x20 :: encVal v (lvl+1)))))) ++
        (sepEntries ps (lvl+1) ++ (0x0A :: (indentB (2*lvl) ++ [0x7D]))))
/-- The `,`-separated continuation items of a nonempty array. -/
def sepItems : JArr → Nat → List Nat
  | .nil, _ => []
  | .cons y ys, lvl => 0x2C :: ((0x0A :: (indentB (2*lvl) ++ encVal y lvl)) ++ sepItems ys lvl)
/-- The `,`-separated continuation entries of a nonempty object. -/
def sepEntries : JObj → Nat → List Nat
  | .nil, _ => []
  | .cons k v ps, lvl =>
      0x2C :: ((0x0A :: (indentB (2*lvl) ++
          (0x22 :: (escapeStr k ++ (0x22 :: 0x3A :: 0x20 :: encVal v lvl))))) ++
        sepEntries ps lvl)
end

/-- Bytes of one object entry, line indented `2*lvl` (newline included). -/
def entryB (k : List Nat) (v : JValue) (lvl : Nat) : List Nat :=
  0x0A :: (indentB (2*lvl) ++ (0x22 :: (escapeStr k ++ (0x22 :: 0x3A :: 0x20 :: encVal v lvl))))

/-- Bytes of one array item, line indented `2*lvl` (newline included). -/
def itemB (v : JValue) (lvl : Nat) : List Nat :=
  0x0A :: (indentB (2*lvl) ++ encVal v lvl)

/-! ### Order-preserving parser (spec §4.1) -/

/-- JSON insignificant whitespace. -/
def isWS (b : Nat) : Bool := b == 0x20 || b == 0x09 || b == 0x0A || b == 0x0D

/-- Drop leading whitespace. -/
def skipWS : List Nat → List Nat
  | b :: r => if isWS b then skipWS r else b :: r
  | [] => []

/-- ASCII decimal digit. -/
def isDigit (b : Nat) : Bool := 0x30 ≤ b && b ≤ 0x39

/-- Byte that may occur in a number's source text. -/
def numByte (b : Nat) : Bool :=
  (0x30 ≤ b && b ≤ 0x39) || b == 0x2D || b == 0x2B || b == 0x2E || b == 0x65 || b == 0x45

/-- Longest initial run of number bytes, and the remainder. -/
def spanNum : List Nat → List Nat × List Nat
  | b :: r =>
      if numByte b then
        match spanNum r with
        | (ds, rest) => (b :: ds, rest)
      else ([], b :: r)
  | [] => ([], [])

/-- Decode one single-character string escape. -/
def escDecode (b : Nat) : Option Nat :=
  if b == 0x22 then some 0x22
  else if b == 0x5C then some 0x5C
  else if b == 0x2F then some 0x2F
  else if b == 0x62 then some 0x08
  else if b == 0x66 then some 0x0C
  else if b == 0x6E then some 0x0A
  else if b == 0x72 then some 0x0D
  else if b == 0x74 then some 0x09
  else none

/-- Parse a string body after the opening quote: decoded bytes and the rest
    after the closing quote. -/
def parseStrBody : List Nat → Option (List Nat × List Nat)
  | 0x22 :: r => some ([], r)
  | 0x5C :: 0x75 :: a :: b :: c :: d :: r =>
      if isHex a && isHex b && isHex c && isHex d then
        match parseStrBody r with
        | some (s, r1) => some (utf8Encode (hexVal4 a b c d) ++ s, r1)
        | none => none
      else none
  | 0x5C :: e :: r =>
      match escDecode e with
      | some x =>
        match parseStrBody r with
        | some (s, r1) => some (x :: s, r1)
        | none => none
      | none => none
  | b :: r =>
      match parseStrBody r with
      | some (s, r1) => some (b :: s, r1)
      | none => none
  | [] => none

/-- Parse a number as its raw source text (maximal run of number bytes). -/
def parseNum (l : List Nat) : Option (List Nat × List Nat) :=
  match spanNum l with
  | ([], _) => none
  | (ds, rest) => some (ds, rest)

mutual
/-- Fuel-bounded recursive-descent parser for one JSON value. -/
def parseV : Nat → List Nat → Option (JValue × List Nat)
  | 0, _ => none
  | fuel+1, l =>
    match skipWS l with
    | 0x6E :: 0x75 :: 0x6C :: 0x6C :: r => some (.null, r)
    | 0x74 :: 0x72 :: 0x75 :: 0x65 :: r => some (.bool true, r)
    | 0x66 :: 0x61 :: 0x6C :: 0x73 :: 0x65 :: r => some (.bool false, r)
    | 0x22 :: r =>
        match parseStrBody r with
        | some (s, r1) => some (.str s, r1)
        | none => none
    | 0x5B :: r =>
        match skipWS r with
        | 0x5D :: r1 => some (.arr .nil, r1)
        | _ =>
          match parseItems fuel r with
          | some (xs, r1) => some (.arr xs, r1)
          | none => none
    | 0x7B :: r =>
        match skipWS r with
        | 0x7D :: r1 => some (.obj .nil, r1)
        | _ =>
          match parseEntries fuel r with
          | some (ms, r1) => some (.obj ms, r1)
          | none => none
    | b :: r =>
        if isDigit b || b == 0x2D then
          match parseNum (b :: r) with
          | some (ds, r1) => some (.num ds, r1)
          | none => none
        else none
    | [] => none
/-- Parse one-or-more comma-separated array elements up to `]`. -/
def parseItems : Nat → List Nat → Option (JArr × List Nat)
  | 0, _ => none
  | fuel+1, l =>
    match parseV fuel l with
    | none => none
    | some (v, r) =>
      match skipWS r with
      | 0x2C :: r1 =>
          match parseItems fuel r1 with
          | some (vs, r2) => some (.cons v vs, r2)
          | none => none
      | 0x5D :: r1 => some (.cons v .nil, r1)
      | _ => none
/-- Parse one-or-more comma-separated object entries up to the closing brace. -/
def parseEntries : Nat → List Nat → Option (JObj × List Nat)
  | 0, _ => none
  | fuel+1, l =>
    match skipWS l with
    | 0x22 :: r =>
        match parseStrBody r with
        | none => none
        | some (k, r1) =>
          match skipWS r1 with
          | 0x3A :: r2 =>
              match parseV fuel r2 with
              | none => none
              | some (v, r3) =>
                match skipWS r3 with
                | 0x2C :: r4 =>
                    match parseEntries fuel r4 with
                    | some (ms, r5) => some (.cons k v ms, r5)
                    | none => none
                | 0x7D :: r4 => some (.cons k v .nil, r4)
                | _ => none
          | _ => none
    | _ => none
end

/-- Parse a whole JSON document (no trailing non-whitespace bytes). -/
def parse (l : List Nat) : Option JValue :=
  match parseV (l.length + 1) l with
  | some (v, r) => if skipWS r = [] then some v else none
  | none => none

/-! ### Canonical message codec facade (spec §4.5) -/

/-- Modelled from the spec: `Canonicalize` composes parser, canonical
    encoder, signature extractor and legacy Unicode normalizer, returning
    the unsigned canonical bytes and the detached signature.  This is the
    operation the test-suite calls `EncodePreserveOrder`. -/
def EncodePreserveOrder (l : List Nat) : Except CodecError (List Nat × List Nat) :=
  if l.isEmpty then .error .EmptyInput
  else
    match parse l with
    | none => .error .MalformedJSON
    | some v =>
      match ExtractAndStrip (encVal v 0) with
      | .ok p => .ok (normalize p.1, p.2)
      | .error e => .error e

/-- Bytes of a canonical trailing signature entry with value `s`
    (separator comma included). -/
def sigEntryBytes (s : List Nat) : List Nat :=
  [0x2C, 0x0A, 0x20, 0x20, 0x22] ++ sigKeyBytes ++ [0x22, 0x3A, 0x20, 0x22] ++ s ++ [0x22]

/-- Re-attach an extracted signature to unsigned canonical bytes, as the last
    field before the closing brace line. -/
def attachSig (u s : List Nat) : List Nat :=
  u.take (u.length - 2) ++ sigEntryBytes s ++ [0x0A, 0x7D]

/-! ### Structural helpers over ordered objects -/

/-- Well-formed number source text: nonempty, starts with a digit or minus,
    and consists of number bytes only. -/
def numOK : List Nat → Bool
  | [] => false
  | b :: r => (isDigit b || b == 0x2D) && (b :: r).all numByte

mutual
/-- Well-formedness of a value: every number in it has well-formed text. -/
def wfV : JValue → Bool
  | .null => true
  | .bool _ => true
  | .num s => numOK s
  | .str _ => true
  | .arr xs => wfA xs
  | .obj ms => wfO ms
/-- Well-formedness of array elements. -/
def wfA : JArr → Bool
  | .nil => true
  | .cons x xs => wfV x && wfA xs
/-- Well-formedness of object entry values. -/
def wfO : JObj → Bool
  | .nil => true
  | .cons _ v ms => wfV v && wfO ms
end

/-- Entry of an ordered object at an index. -/
def objNth : JObj → Nat → Option (List Nat × JValue)
  | .nil, _ => none
  | .cons k v _, 0 => some (k, v)
  | .cons _ _ tl, n+1 => objNth tl n

/-- Ordered object with the entry at an index removed. -/
def objEraseIdx : JObj → Nat → JObj
  | .nil, _ => .nil
  | .cons _ _ tl, 0 => tl
  | .cons k v tl, n+1 => .cons k v (objEraseIdx tl n)

/-- Number of entries. -/
def objLen : JObj → Nat
  | .nil => 0
  | .cons _ _ tl => objLen tl + 1

/-- Ordered object with one entry appended at the end. -/
def objSnoc : JObj → List Nat → JValue → JObj
  | .nil, k, v => .cons k v .nil
  | .cons k0 v0 tl, k, v => .cons k0 v0 (objSnoc tl k v)

/-- No top-level entry is named `signature`. -/
def noSigKeys : JObj → Bool
  | .nil => true
  | .cons k _ tl => !(k == sigKeyBytes) && noSigKeys tl

/-- No top-level entry other than the one at the given index is named
    `signature`. -/
def noSigExcept : JObj → Nat → Bool
  | .nil, _ => true
  | .cons _ _ tl, 0 => noSigKeys tl
  | .cons k _ tl, n+1 => !(k == sigKeyBytes) && noSigExcept tl n

/-! ### Occurrence invariants used to locate signature-field matches -/

/-- Newline discipline of nested encoder output: after every raw newline come
    at least three bytes, the third of which is not a quote (nested lines are
    indented at least four spaces, or close a bracket after two). -/
def nlProp (l : List Nat) : Prop :=
  ∀ a b, l = a ++ 0x0A :: b → ∃ c1 c2 c3 b2, b = c1 :: c2 :: c3 :: b2 ∧ c3 ≠ 0x22

/-- Quote discipline of escaped string bodies: every raw quote byte is
    immediately preceded by a backslash. -/
def qProp (l : List Nat) : Prop :=
  ∀ a b, l = a ++ 0x22 :: b → ∃ a2, a = a2 ++ [0x5C]

/-- No nonempty suffix of `c`, continued by `t`, begins a signature-field
    match. -/
def noStart (c t : List Nat) : Prop :=
  ∀ s, s ≠ [] → (∃ a, c = a ++ s) → startsWith sigMark (s ++ t) = false

/-! ### Concrete test vectors (from `src/repo.go`) -/

/-- Bytes of the `TestStripSignature` input:
    a canonical object with fields `foo: "hello"` and
    `signature: "aBISzGroszUndKlein01234567890/+="`. -/
def stripInput : List Nat :=
  [0x7B, 0x0A, 0x20, 0x20, 0x22, 0x66, 0x6F, 0x6F, 0x22, 0x3A, 0x20, 0x22,
   0x68, 0x65, 0x6C, 0x6C, 0x6F, 0x22, 0x2C, 0x0A, 0x20, 0x20, 0x22, 0x73,
   0x69, 0x67, 0x6E, 0x61, 0x74, 0x75, 0x72, 0x65, 0x22, 0x3A, 0x20, 0x22,
   0x61, 0x42, 0x49, 0x53, 0x7A, 0x47, 0x72, 0x6F, 0x73, 0x7A, 0x55, 0x6E,
   0x64, 0x4B, 0x6C, 0x65, 0x69, 0x6E, 0x30, 0x31, 0x32, 0x33, 0x34, 0x35,
   0x36, 0x37, 0x38, 0x39, 0x30, 0x2F, 0x2B, 0x3D, 0x22, 0x0A, 0x7D]

/-- Bytes of the expected `TestStripSignature` unsigned output:
    the same object with the signature line and its separator comma removed. -/
def stripWant : List Nat :=
  [0x7B, 0x0A, 0x20, 0x20, 0x22, 0x66, 0x6F, 0x6F, 0x22, 0x3A, 0x20, 0x22,
   0x68, 0x65, 0x6C, 0x6C, 0x6F, 0x22, 0x0A, 0x7D]

/-- Bytes of the signature value `aBISzGroszUndKlein01234567890/+=`. -/
def stripWantSig : List Nat :=
  [0x61, 0x42, 0x49, 0x53, 0x7A, 0x47, 0x72, 0x6F, 0x73, 0x7A, 0x55, 0x6E,
   0x64, 0x4B, 0x6C, 0x65, 0x69, 0x6E, 0x30, 0x31, 0x32, 0x33, 0x34, 0x35,
   0x36, 0x37, 0x38, 0x39, 0x30, 0x2F, 0x2B, 0x3D]

/-- Bytes of the `TestExtractSignature` input
    `{"foo":"test","signature":"testSign"}` (compact form). -/
def extractInput : List Nat :=
  [0x7B, 0x22, 0x66, 0x6F, 0x6F, 0x22, 0x3A, 0x22, 0x74, 0x65, 0x73, 0x74,
   0x22, 0x2C, 0x22, 0x73, 0x69, 0x67, 0x6E, 0x61, 0x74, 0x75, 0x72, 0x65,
   0x22, 0x3A, 0x22, 0x74, 0x65, 0x73, 0x74, 0x53, 0x69, 0x67, 0x6E, 0x22, 0x7D]

/-- Bytes of the key `foo`. -/
def fooBytes : List Nat := [0x66, 0x6F, 0x6F]

/-- Bytes of the string `test`. -/
def testBytes : List Nat := [0x74, 0x65, 0x73, 0x74]

/-- Bytes of the signature value `testSign`. -/
def testSignBytes : List Nat := [0x74, 0x65, 0x73, 0x74, 0x53, 0x69, 0x67, 0x6E]

/-- Canonical unsigned bytes of the `TestExtractSignature` object. -/
def extractUnsigned : List Nat :=
  [0x7B, 0x0A, 0x20, 0x20, 0x22, 0x66, 0x6F, 0x6F, 0x22, 0x3A, 0x20, 0x22,
   0x74, 0x65, 0x73, 0x74, 0x22, 0x0A, 0x7D]

/-- A message whose first field value is the six-character text
    backslash-u-0-0-4-1 (written `"\\u0041"` in the JSON source):
    the bytes of `{"a":"\\u0041","signature":"aa"}`. -/
def roundTripCounterInput : List Nat :=
  [0x7B, 0x22, 0x61, 0x22, 0x3A, 0x22, 0x5C, 0x5C, 0x75, 0x30, 0x30, 0x34,
   0x31, 0x22, 0x2C, 0x22, 0x73, 0x69, 0x67, 0x6E, 0x61, 0x74, 0x75, 0x72,
   0x65, 0x22, 0x3A, 0x22, 0x61, 0x61, 0x22, 0x7D]

/-- A buffer with no recognizable escape is left untouched by `normalize`. -/
theorem normalize_id_of_noEscape : ∀ l : List Nat, hasEscape l = false → normalize l = l := by
  intro l h
  induction l using normalize.induct with
  | case1 a b c d rest hhex ih =>
      simp [hasEscape, hhex] at h
  | case2 a b c d rest hhex ih =>
      simp only [hasEscape, Bool.or_eq_false_iff] at h
      have h2 := ih (by simp only [hasEscape]; exact h.2)
      simp only [normalize] at h2
      simp only [normalize, if_neg hhex, h2]
  | case3 a b c d e f g h8 rest hhex ih =>
      simp only [hasEscape, Bool.or_eq_false_iff] at h
      have h4 : (isHex a && isHex b && isHex c && isHex d) = false := h.1
      simp only [Bool.and_eq_true] at hhex
      simp [hhex.1.1.1.1.1.1.1, hhex.1.1.1.1.1.1.2, hhex.1.1.1.1.1.2, hhex.1.1.1.1.2] at h4
  | case4 a b c d e f g h8 rest h8f h4 ih =>
      simp [hasEscape, h4] at h
  | case5 a b c d e f g h8 rest h8f h4 ih =>
      simp only [hasEscape, Bool.or_eq_false_iff] at h
      have h2 := ih (by simp only [hasEscape]; exact h.2)
      simp only [normalize] at h2
      simp only [normalize, if_neg h8f, if_neg h4, h2]
  | case6 a b c d rest hshort hhex ih =>
      simp [hasEscape, hhex] at h
  | case7 a b c d rest hshort hhex ih =>
      simp only [hasEscape, Bool.or_eq_false_iff] at h
      have h2 := ih (by simp only [hasEscape]; exact h.2)
      simp only [normalize] at h2
      simp only [normalize, if_neg hhex, h2]
  | case8 x xs h1 h2 h3 ih =>
      simp only [hasEscape] at h
      simp only [normalize, ih h]
  | case9 => rfl

/-! ### Claim theorems: the Legacy Unicode Normalizer -/

/-- C3: `Normalize` rewrites each recognized Unicode escape into the raw
    UTF-8 encoding of the decoded code point while leaving surrounding bytes
    unchanged: the escape for U+0027 in context yields an apostrophe byte,
    the adjacent escapes for U+24B6 and U+2691 decode independently to the
    raw UTF-8 of the two characters, and the 8-digit escape for U+1F12F
    decodes to the raw UTF-8 of that single character. -/
theorem claim_C3 :
    normalize [0x77, 0x61, 0x73, 0x6E, 0x5C, 0x75, 0x30, 0x30, 0x32, 0x37, 0x74]
      = [0x77, 0x61, 0x73, 0x6E, 0x27, 0x74] ∧
    normalize [0x5C, 0x55, 0x32, 0x34, 0x42, 0x36, 0x5C, 0x75, 0x32, 0x36, 0x39, 0x31]
      = [0xE2, 0x92, 0xB6, 0xE2, 0x9A, 0x91] ∧
    normalize [0x5C, 0x55, 0x30, 0x30, 0x30, 0x31, 0x66, 0x31, 0x32, 0x66]
      = [0xF0, 0x9F, 0x84, 0xAF] :=
  ⟨rfl, rfl, rfl⟩

/-- C4: the escape pattern is a backslash, a literal `u` or `U`, then a hex
    digit run: a lowercase escape always consumes exactly 4 hex digits no
    matter what follows, an uppercase escape consumes 8 hex digits when
    present, the find-all scan on the `TestUnicodeFind` vector returns
    exactly the two 4-digit matches, and the malformed 4-digit uppercase
    form for U+24B6 is accepted and decoded rather than rejected. -/
theorem claim_C4 :
    findEscapes [0x54, 0x65, 0x73, 0x74, 0x5C, 0x75, 0x31, 0x32, 0x33, 0x34,
        0x54, 0x45, 0x53, 0x54, 0x5C, 0x75, 0x34, 0x34, 0x34, 0x34]
      = [[0x5C, 0x75, 0x31, 0x32, 0x33, 0x34], [0x5C, 0x75, 0x34, 0x34, 0x34, 0x34]] ∧
    normalize [0x5C, 0x55, 0x32, 0x34, 0x42, 0x36] = [0xE2, 0x92, 0xB6] ∧
    (∀ a b c d rest, (isHex a && isHex b && isHex c && isHex d) = true →
      normalize (0x5C :: 0x75 :: a :: b :: c :: d :: rest)
        = utf8Encode (hexVal4 a b c d) ++ normalize rest) ∧
    (∀ a b c d e f g h rest,
      (isHex a && isHex b && isHex c && isHex d &&
        isHex e && isHex f && isHex g && isHex h) = true →
      normalize (0x5C :: 0x55 :: a :: b :: c :: d :: e :: f :: g :: h :: rest)
        = utf8Encode (hexVal8 a b c d e f g h) ++ normalize rest) := by
  refine ⟨rfl, rfl, ?_, ?_⟩
  · intro a b c d rest hhex
    rw [normalize, if_pos hhex]
  · intro a b c d e f g h rest hhex
    rw [normalize, if_pos hhex]

/-- Witness for C4: the two universal parts applied at the concrete escapes
    `'` and `\U0001f12f`. -/
theorem claim_C4_witness :
    normalize [0x5C, 0x75, 0x30, 0x30, 0x32, 0x37]
      = utf8Encode (hexVal4 0x30 0x30 0x32 0x37) ++ normalize [] ∧
    normalize [0x5C, 0x55, 0x30, 0x30, 0x30, 0x31, 0x66, 0x31, 0x32, 0x66]
      = utf8Encode (hexVal8 0x30 0x30 0x30 0x31 0x66 0x31 0x32 0x66) ++ normalize [] :=
  ⟨claim_C4.2.2.1 0x30 0x30 0x32 0x37 [] (by decide),
   claim_C4.2.2.2 0x30 0x30 0x30 0x31 0x66 0x31 0x32 0x66 [] (by decide)⟩

/-- C5 counterexample: `Normalize` is not idempotent on every buffer.  On
    the 11-byte buffer below, the first pass decodes the escape for U+005C
    to a backslash byte, exposing a fresh escape for U+0030 that a second
    pass rewrites further. -/
theorem claim_C5_counterexample :
    normalize (normalize [0x5C, 0x75, 0x30, 0x30, 0x35, 0x43, 0x75, 0x30, 0x30, 0x33, 0x30])
      ≠ normalize [0x5C, 0x75, 0x30, 0x30, 0x35, 0x43, 0x75, 0x30, 0x30, 0x33, 0x30] := by
  decide

/-- C5 (amended): `Normalize` is idempotent on every buffer whose
    normalization contains no recognizable escape pattern left to rewrite;
    in general a first pass can expose a fresh escape (for example by
    decoding the escape for U+005C to a backslash byte), which a second
    pass rewrites. -/
theorem claim_C5 :
    ∀ x : List Nat, hasEscape (normalize x) = false →
      normalize (normalize x) = normalize x :=
  fun _ h => normalize_id_of_noEscape _ h

/-- Witness for C5: the amended idempotence applied to the U+0027 vector. -/
theorem claim_C5_witness :
    hasEscape (normalize [0x77, 0x61, 0x73, 0x6E, 0x5C, 0x75, 0x30, 0x30, 0x32, 0x37, 0x74]) = false ∧
    normalize (normalize [0x77, 0x61, 0x73, 0x6E, 0x5C, 0x75, 0x30, 0x30, 0x32, 0x37, 0x74])
      = normalize [0x77, 0x61, 0x73, 0x6E, 0x5C, 0x75, 0x30, 0x30, 0x32, 0x37, 0x74] :=
  ⟨by decide, claim_C5 _ (by decide)⟩

/-- C6: `Normalize` never fails - it is a total function on byte buffers -
    and any buffer containing no recognizable escape is passed through
    unchanged; in particular partially malformed sequences such as `\u00`
    (insufficient trailing hex digits) and `\uZZ99` (non-hex digits) are
    left untouched. -/
theorem claim_C6 :
    (∀ l : List Nat, hasEscape l = false → normalize l = l) ∧
    normalize [0x5C, 0x75, 0x30, 0x30] = [0x5C, 0x75, 0x30, 0x30] ∧
    normalize [0x5C, 0x75, 0x5A, 0x5A, 0x39, 0x39] = [0x5C, 0x75, 0x5A, 0x5A, 0x39, 0x39] :=
  ⟨normalize_id_of_noEscape, rfl, rfl⟩

/-- Witness for C6: the universal pass-through applied to a buffer holding a
    lone backslash-u with too few hex digits. -/
theorem claim_C6_witness :
    hasEscape [0x78, 0x5C, 0x75, 0x30, 0x30] = false ∧
    normalize [0x78, 0x5C, 0x75, 0x30, 0x30] = [0x78, 0x5C, 0x75, 0x30, 0x30] :=
  ⟨by decide, claim_C6.1 [0x78, 0x5C, 0x75, 0x30, 0x30] (by decide)⟩

/-- C9: an uppercase escape followed by 8 hex digits consumes all 8 digits
    as one code point: the 8-digit escape decodes to the raw UTF-8 of the
    single code point U+1F12F, not to the code point 0x0001 followed by the
    literal text f12f. -/
theorem claim_C9 :
    normalize [0x5C, 0x55, 0x30, 0x30, 0x30, 0x31, 0x66, 0x31, 0x32, 0x66]
      = [0xF0, 0x9F, 0x84, 0xAF] ∧
    normalize [0x5C, 0x55, 0x30, 0x30, 0x30, 0x31, 0x66, 0x31, 0x32, 0x66]
      ≠ utf8Encode 0x0001 ++ [0x66, 0x31, 0x32, 0x66] :=
  ⟨rfl, by decide⟩

/-! ### Claim theorems: the signature extractor on its test vector -/

/-- C1: on the canonically encoded `TestStripSignature` object,
    `ExtractAndStrip` removes exactly the signature line together with its
    preceding separator comma, and returns the signature value with its
    surrounding quotes stripped and no further decoding. -/
theorem claim_C1 : ExtractAndStrip stripInput = .ok (stripWant, stripWantSig) := rfl

/-- C2: canonicalizing the compact `{"foo":"test","signature":"testSign"}`
    succeeds, the parse keeps `foo` ordered before `signature`, and the
    extracted signature is exactly `testSign`. -/
theorem claim_C2 :
    parse extractInput
      = some (.obj (.cons fooBytes (.str testBytes)
          (.cons sigKeyBytes (.str testSignBytes) .nil))) ∧
    EncodePreserveOrder extractInput = .ok (extractUnsigned, testSignBytes) :=
  ⟨rfl, rfl⟩

/-! ### List splitting and the occurrence invariants -/

/-- Explicit bytes of the 17-byte fixed signature-field pattern. -/
theorem sigMark_eq :
    sigMark = [0x2C, 0x0A, 0x20, 0x20, 0x22, 0x73, 0x69, 0x67, 0x6E, 0x61,
      0x74, 0x75, 0x72, 0x65, 0x22, 0x3A, 0x20] := rfl

/-- A distinguished byte inside a concatenation lies in the left part (its
    tail spilling right) or in the right part. -/
theorem split_middle : ∀ (x y pre post : List Nat) (c : Nat),
    x ++ y = pre ++ c :: post →
    (∃ t, x = pre ++ c :: t ∧ post = t ++ y) ∨
      (∃ t, pre = x ++ t ∧ y = t ++ c :: post) := by
  intro x
  induction x with
  | nil =>
      intro y pre post c h
      rw [List.nil_append] at h
      exact .inr ⟨pre, rfl, h⟩
  | cons a x2 ih =>
      intro y pre post c h
      cases pre with
      | nil =>
          simp only [List.cons_append, List.nil_append, List.cons.injEq] at h
          exact .inl ⟨x2, by simp [h.1], h.2.symm⟩
      | cons p pre2 =>
          simp only [List.cons_append, List.cons.injEq] at h
          rcases ih y pre2 post c h.2 with ⟨t, hx, hp⟩ | ⟨t, hp, hy⟩
          · exact .inl ⟨t, by simp [h.1, hx], hp⟩
          · exact .inr ⟨t, by simp [h.1, hp], hy⟩

/-- Newline discipline holds vacuously for newline-free buffers. -/
theorem nlProp_of_noNL {l : List Nat} (h : ∀ x ∈ l, x ≠ 0x0A) : nlProp l := by
  intro a b heq
  have hm : (0x0A : Nat) ∈ l := by
    rw [heq]; exact List.mem_append_right a (List.mem_cons_self _ _)
  exact absurd rfl (h _ hm)

/-- Newline discipline is preserved by concatenation. -/
theorem nlProp_append {x y : List Nat} (hx : nlProp x) (hy : nlProp y) :
    nlProp (x ++ y) := by
  intro a b heq
  rcases split_middle x y a b 0x0A heq with ⟨t, hx1, hb⟩ | ⟨t, _, hy1⟩
  · obtain ⟨c1, c2, c3, b2, ht, hc3⟩ := hx a t hx1
    exact ⟨c1, c2, c3, b2 ++ y, by rw [hb, ht]; simp, hc3⟩
  · obtain ⟨c1, c2, c3, b2, ht, hc3⟩ := hy t b hy1
    exact ⟨c1, c2, c3, b2, ht, hc3⟩

/-- Prepending a newline keeps the discipline when at least three bytes
    follow and the third is not a quote. -/
theorem nlProp_cons_nl {l : List Nat}
    (hhd : ∃ c1 c2 c3 t, l = c1 :: c2 :: c3 :: t ∧ c3 ≠ 0x22) (hl : nlProp l) :
    nlProp (0x0A :: l) := by
  intro a b heq
  cases a with
  | nil =>
      rw [List.nil_append] at heq
      obtain ⟨c1, c2, c3, t, hl2, hc⟩ := hhd
      cases heq
      exact ⟨c1, c2, c3, t, hl2, hc⟩
  | cons a0 a2 =>
      simp only [List.cons_append, List.cons.injEq] at heq
      exact hl a2 b heq.2

/-- Quote discipline holds vacuously for quote-free buffers. -/
theorem qProp_of_no22 {l : List Nat} (h : ∀ x ∈ l, x ≠ 0x22) : qProp l := by
  intro a b heq
  have hm : (0x22 : Nat) ∈ l := by
    rw [heq]; exact List.mem_append_right a (List.mem_cons_self _ _)
  exact absurd rfl (h _ hm)

/-- Quote discipline is preserved by concatenation when the right part does
    not begin with a raw quote. -/
theorem qProp_append {x y : List Nat} (hx : qProp x) (hy : qProp y)
    (hhd : y.head? ≠ some 0x22) : qProp (x ++ y) := by
  intro a b heq
  rcases split_middle x y a b 0x22 heq with ⟨t, hx1, _⟩ | ⟨t, ha, hy1⟩
  · exact hx a t hx1
  · cases t with
    | nil => rw [List.nil_append] at hy1; rw [hy1] at hhd; simp at hhd
    | cons t0 t2 =>
        obtain ⟨a2, ht⟩ := hy (t0 :: t2) b hy1
        exact ⟨x ++ a2, by rw [ha, ht]; simp⟩

/-- A nonempty final run of the left part of a concatenation: the final run
    is in the right part, or it covers the whole right part and a bit more. -/
theorem suffix_split : ∀ (a b c s : List Nat), a ++ b = c ++ s →
    (∃ t, b = t ++ s) ∨ (∃ t, t ≠ [] ∧ a = c ++ t ∧ s = t ++ b) := by
  intro a
  induction a with
  | nil =>
      intro b c s h
      rw [List.nil_append] at h
      exact .inl ⟨c, h⟩
  | cons x a2 ih =>
      intro b c s h
      cases c with
      | nil =>
          rw [List.nil_append] at h
          exact .inr ⟨x :: a2, by simp, rfl, h.symm⟩
      | cons y c2 =>
          simp only [List.cons_append, List.cons.injEq] at h
          rcases ih b c2 s h.2 with ⟨t, hb⟩ | ⟨t, htne, ha2, hs⟩
          · exact .inl ⟨t, hb⟩
          · exact .inr ⟨t, htne, by simp [h.1, ha2], hs⟩

/-- The signature pattern never begins at a byte other than a comma. -/
theorem startsWith_sigMark_false {x : Nat} (hx : x ≠ 0x2C) (l : List Nat) :
    startsWith sigMark (x :: l) = false := by
  rw [sigMark_eq]
  simp only [startsWith, Bool.and_eq_false_iff, beq_eq_false_iff_ne]
  exact .inl (fun h => hx h.symm)

/-- A chunk containing no comma cannot begin a signature-field match. -/
theorem noStart_no2C {c : List Nat} (h : ∀ x ∈ c, x ≠ 0x2C) (t : List Nat) :
    noStart c t := by
  rintro s hne ⟨a, ha⟩
  cases s with
  | nil => exact absurd rfl hne
  | cons s0 s2 =>
      have hs0 : s0 ∈ c := by
        rw [ha]; exact List.mem_append_right a (List.mem_cons_self _ _)
      exact startsWith_sigMark_false (h s0 hs0) _

/-- Suffixes of the tail are suffixes of the whole. -/
theorem noStart_tail {x : Nat} {c t : List Nat} (h : noStart (x :: c) t) :
    noStart c t := by
  rintro s hne ⟨a, ha⟩
  exact h s hne ⟨x :: a, by rw [List.cons_append, ha]⟩

/-- Chunks compose: no match can begin inside `a` nor inside `b`. -/
theorem noStart_append {a b t : List Nat}
    (ha : noStart a (b ++ t)) (hb : noStart b t) : noStart (a ++ b) t := by
  rintro s hne ⟨c, hc⟩
  rcases suffix_split a b c s hc with ⟨t2, hb2⟩ | ⟨t2, ht2ne, ha2, hs2⟩
  · exact hb s hne ⟨t2, hb2⟩
  · have := ha t2 ht2ne ⟨c, ha2⟩
    rw [hs2, List.append_assoc]
    exact this

/-- Core non-occurrence lemma: inside a buffer whose newlines obey the
    nested-indentation discipline, a signature-field match cannot begin,
    provided either the buffer does not end in a comma or the continuation
    does not begin with a newline. -/
theorem noStart_of_nlProp {l t : List Nat} (hnl : nlProp l)
    (hside : l.getLast? ≠ some 0x2C ∨ t.head? ≠ some 0x0A) : noStart l t := by
  rintro s hne ⟨a, ha⟩
  cases s with
  | nil => exact absurd rfl hne
  | cons s0 s2 =>
      by_cases h0 : s0 = 0x2C
      case neg => exact startsWith_sigMark_false h0 _
      subst h0
      cases s2 with
      | nil =>
          rcases hside with hlast | hhead
          · exfalso
            apply hlast
            rw [ha, List.getLast?_append_cons]
            rfl
          · cases t with
            | nil => rfl
            | cons t0 t2 =>
                have ht0 : t0 ≠ 0x0A := fun h => by rw [h] at hhead; simp at hhead
                rw [sigMark_eq]
                simp only [List.cons_append, List.nil_append, startsWith,
                  Bool.and_eq_false_iff, beq_eq_false_iff_ne]
                exact .inr (.inl fun h => ht0 h.symm)
      | cons s1 s3 =>
          by_cases h1 : s1 = 0x0A
          case neg =>
            rw [sigMark_eq]
            simp only [List.cons_append, startsWith, Bool.and_eq_false_iff,
              beq_eq_false_iff_ne]
            exact .inr (.inl fun h => h1 h.symm)
          subst h1
          have hsplit : l = (a ++ [0x2C]) ++ 0x0A :: s3 := by rw [ha]; simp
          obtain ⟨c1, c2, c3, b2, hs3, hc3⟩ := hnl _ _ hsplit
          subst hs3
          rw [sigMark_eq]
          simp only [List.cons_append, startsWith, Bool.and_eq_false_iff,
            beq_eq_false_iff_ne]
          exact .inr (.inr (.inr (.inr (.inl fun h => hc3 h.symm))))

/-- Stripping a literal initial run succeeds only where the run is present. -/
theorem dropStart_startsWith : ∀ p l r : List Nat,
    dropStart p l = some r → startsWith p l = true := by
  intro p
  induction p with
  | nil => intro l r _; rfl
  | cons p0 p2 ih =>
      intro l r h
      cases l with
      | nil => simp [dropStart] at h
      | cons x xs =>
          cases hbe : (p0 == x) with
          | false => rw [dropStart, hbe] at h; simp at h
          | true =>
              rw [dropStart, hbe] at h
              simp only [if_true] at h
              rw [startsWith, hbe, Bool.true_and]
              exact ih xs r h

/-- Where the fixed pattern is absent, the full matcher fails. -/
theorem matchSigAt_none {l : List Nat}
    (h : startsWith sigMark l = false) : matchSigAt l = none := by
  rw [matchSigAt]
  cases hd : dropStart sigMark l with
  | none => rfl
  | some r => rw [dropStart_startsWith sigMark l r hd] at h; cases h

/-- Occurrence scan skips over a chunk that cannot begin a match. -/
theorem occursSig_chunk {c t : List Nat} (h : noStart c t) :
    occursSig (c ++ t) = occursSig t := by
  induction c with
  | nil => rfl
  | cons x c2 ih =>
      have h1 : startsWith sigMark ((x :: c2) ++ t) = false := h _ (by simp) ⟨[], rfl⟩
      rw [List.cons_append] at h1 ⊢
      rw [occursSig, h1, Bool.false_or]
      exact ih (noStart_tail h)

/-- The extractor scan skips over a chunk that cannot begin a match,
    re-emitting it in front of whatever it strips later. -/
theorem findSig_chunk {c t : List Nat} (h : noStart c t) :
    findSig (c ++ t) = (findSig t).map (fun p => (c ++ p.1, p.2)) := by
  induction c with
  | nil =>
      rw [List.nil_append]
      cases findSig t <;> rfl
  | cons x c2 ih =>
      have h1 : startsWith sigMark ((x :: c2) ++ t) = false := h _ (by simp) ⟨[], rfl⟩
      rw [List.cons_append] at h1 ⊢
      rw [findSig, matchSigAt_none h1, ih (noStart_tail h)]
      cases findSig t <;> rfl

/-- Without any occurrence of the fixed pattern the extractor finds nothing. -/
theorem findSig_none_of_occursSig {l : List Nat} (h : occursSig l = false) :
    findSig l = none := by
  induction l with
  | nil => rfl
  | cons x xs ih =>
      rw [occursSig, Bool.or_eq_false_iff] at h
      rw [findSig, matchSigAt_none h.1, ih h.2]

/-- Case analysis of one escaped byte. -/
theorem escapeByte_spec (b : Nat) :
    (b = 0x22 ∧ escapeByte b = [0x5C, 0x22]) ∨
    (b = 0x5C ∧ escapeByte b = [0x5C, 0x5C]) ∨
    (b < 0x20 ∧
      escapeByte b = [0x5C, 0x75, 0x30, 0x30, hexDigitByte (b / 16), hexDigitByte (b % 16)]) ∨
    (0x20 ≤ b ∧ b ≠ 0x22 ∧ b ≠ 0x5C ∧ escapeByte b = [b]) := by
  by_cases h1 : b = 0x22
  · exact .inl ⟨h1, by rw [escapeByte]; simp [h1]⟩
  by_cases h2 : b = 0x5C
  · exact .inr (.inl ⟨h2, by rw [escapeByte]; simp [h2]⟩)
  by_cases h3 : b < 0x20
  · refine .inr (.inr (.inl ⟨h3, ?_⟩))
    rw [escapeByte]
    simp only [beq_iff_eq, h1, if_false, h2, if_pos h3]
  · refine .inr (.inr (.inr ⟨by omega, h1, h2, ?_⟩))
    rw [escapeByte]
    simp only [beq_iff_eq, h1, if_false, h2, if_neg h3]

/-- Hex digit bytes are at least the byte of the digit 0. -/
theorem hexDigitByte_ge (n : Nat) : 0x30 ≤ hexDigitByte n := by
  rw [hexDigitByte]; split <;> omega

/-- Escaped output never contains a raw newline. -/
theorem escapeStr_noNL : ∀ s : List Nat, ∀ x ∈ escapeStr s, x ≠ 0x0A := by
  intro s
  induction s with
  | nil => intro x hx; simp [escapeStr] at hx
  | cons b s2 ih =>
      intro x hx
      rw [escapeStr, List.mem_append] at hx
      rcases hx with hx | hx
      · rcases escapeByte_spec b with ⟨_, he⟩ | ⟨_, he⟩ | ⟨_, he⟩ | ⟨_, _, _, he⟩ <;>
          rw [he] at hx
        · simp at hx; rcases hx with h | h <;> omega
        · simp at hx; omega
        · have g1 := hexDigitByte_ge (b / 16)
          have g2 := hexDigitByte_ge (b % 16)
          simp at hx
          rcases hx with h | h | h | h | h | h <;> omega
        · simp at hx; omega
      · exact ih x hx

/-- Escaped output begins with a backslash or a safe byte, never a raw
    quote. -/
theorem escapeStr_headq (s : List Nat) : (escapeStr s).head? ≠ some 0x22 := by
  cases s with
  | nil => simp [escapeStr]
  | cons b s2 =>
      rw [escapeStr]
      rcases escapeByte_spec b with ⟨_, he⟩ | ⟨_, he⟩ | ⟨_, he⟩ | ⟨_, hb, _, he⟩ <;>
        rw [he] <;> simp
      omega

/-- Escaped output obeys the quote discipline. -/
theorem escapeStr_qProp (s : List Nat) : qProp (escapeStr s) := by
  induction s with
  | nil => exact qProp_of_no22 (by simp [escapeStr])
  | cons b s2 ih =>
      rw [escapeStr]
      refine qProp_append ?_ ih (escapeStr_headq s2)
      rcases escapeByte_spec b with ⟨_, he⟩ | ⟨_, he⟩ | ⟨hlt, he⟩ | ⟨_, hb, _, he⟩ <;> rw [he]
      · intro a c h
        match a, h with
        | [], h => simp at h
        | [a0], h =>
            simp only [List.cons_append, List.nil_append, List.cons.injEq] at h
            exact ⟨[], by simp [h.1]⟩
        | a0 :: a1 :: a2, h =>
            simp only [List.cons_append, List.cons.injEq] at h
            have := congrArg List.length h.2.2
            simp at this
            omega
      · exact qProp_of_no22 (by simp)
      · refine qProp_of_no22 ?_
        intro x hx
        have g1 := hexDigitByte_ge (b / 16)
        have g2 := hexDigitByte_ge (b % 16)
        simp at hx
        rcases hx with h | h | h | h | h | h <;> omega
      · exact qProp_of_no22 (by simp; omega)

/-- Number-text bytes are printable and in particular neither newline,
    quote, nor comma. -/
theorem numByte_lower {x : Nat} (h : numByte x = true) : 0x2B ≤ x ∧ x ≠ 0x2C := by
  rw [numByte] at h
  simp only [Bool.or_eq_true, decide_eq_true_eq, Bool.and_eq_true, beq_iff_eq] at h
  omega

/-- The head of an `Option.some` of the last element. -/
theorem last_mem : ∀ (l : List Nat) (x : Nat), l.getLast? = some x → x ∈ l := by
  intro l
  induction l with
  | nil => intro x h; simp at h
  | cons a l2 ih =>
      intro x h
      cases l2 with
      | nil => simp at h; simp [h]
      | cons b l3 =>
          rw [List.getLast?_cons_cons] at h
          exact List.mem_cons_of_mem a (ih x h)

/-- Encoded values are nonempty and never end in a comma. -/
theorem encLast (v : JValue) (lvl : Nat) (hwf : wfV v = true) :
    ∃ x, (encVal v lvl).getLast? = some x ∧ x ≠ 0x2C := by
  cases v with
  | null => exact ⟨0x6C, rfl, by decide⟩
  | bool b => cases b with
      | true => exact ⟨0x65, rfl, by decide⟩
      | false => exact ⟨0x65, rfl, by decide⟩
  | num s =>
      rw [wfV] at hwf
      cases s with
      | nil => rw [numOK] at hwf; cases hwf
      | cons b r =>
          rw [numOK, Bool.and_eq_true] at hwf
          cases hl : (b :: r).getLast? with
          | none => simp at hl
          | some x =>
              refine ⟨x, hl, ?_⟩
              have hx : x ∈ b :: r := last_mem _ _ hl
              have := List.all_eq_true.1 hwf.2 x hx
              exact (numByte_lower (by simpa using this)).2
  | str s =>
      refine ⟨0x22, ?_, by decide⟩
      show (0x22 :: (escapeStr s ++ [0x22])).getLast? = some 0x22
      rw [show 0x22 :: (escapeStr s ++ [0x22]) = (0x22 :: escapeStr s) ++ [0x22] by simp,
        List.getLast?_concat]
  | arr xs =>
      cases xs with
      | nil => exact ⟨0x5D, rfl, by decide⟩
      | cons x xs2 =>
          refine ⟨0x5D, ?_, by decide⟩
          rw [encVal]
          rw [show 0x5B :: ((0x0A :: (indentB (2*(lvl+1)) ++ encVal x (lvl+1))) ++
              (sepItems xs2 (lvl+1) ++ (0x0A :: (indentB (2*lvl) ++ [0x5D]))))
            = (0x5B :: ((0x0A :: (indentB (2*(lvl+1)) ++ encVal x (lvl+1))) ++
              (sepItems xs2 (lvl+1) ++ (0x0A :: indentB (2*lvl))))) ++ [0x5D] by simp,
            List.getLast?_concat]
  | obj ms =>
      cases ms with
      | nil => exact ⟨0x7D, rfl, by decide⟩
      | cons k v tl =>
          refine ⟨0x7D, ?_, by decide⟩
          rw [encVal]
          rw [show 0x7B :: ((0x0A :: (indentB (2*(lvl+1)) ++
              (0x22 :: (escapeStr k ++ (0x22 :: 0x3A :: 0x20 :: encVal v (lvl+1)))))) ++
              (sepEntries tl (lvl+1) ++ (0x0A :: (indentB (2*lvl) ++ [0x7D]))))
            = (0x7B :: ((0x0A :: (indentB (2*(lvl+1)) ++
              (0x22 :: (escapeStr k ++ (0x22 :: 0x3A :: 0x20 :: encVal v (lvl+1)))))) ++
              (sepEntries tl (lvl+1) ++ (0x0A :: indentB (2*lvl))))) ++ [0x7D] by simp,
            List.getLast?_concat]

/-- An indent of at least three spaces provides the three bytes after a
    newline, the third not a quote. -/
theorem head3_indent_deep (l : Nat) (r : List Nat) :
    ∃ c1 c2 c3 t, indentB (2*(l+2)) ++ r = c1 :: c2 :: c3 :: t ∧ c3 ≠ 0x22 := by
  refine ⟨0x20, 0x20, 0x20, indentB (2*l+1) ++ r, ?_, by decide⟩
  rw [show 2*(l+2) = (2*l+1)+3 by omega]
  simp [indentB, List.replicate_succ]

/-- A closing-bracket line (two or more spaces of indent, then a non-quote
    byte) provides the three bytes after a newline, the third not a quote. -/
theorem head3_indent_close (l : Nat) (x : Nat) (r : List Nat) (hx : x ≠ 0x22) :
    ∃ c1 c2 c3 t, indentB (2*(l+1)) ++ x :: r = c1 :: c2 :: c3 :: t ∧ c3 ≠ 0x22 := by
  cases l with
  | zero => exact ⟨0x20, 0x20, x, r, by simp [indentB, List.replicate_succ], hx⟩
  | succ m =>
      refine ⟨0x20, 0x20, 0x20, indentB (2*m+1) ++ x :: r, ?_, by decide⟩
      rw [show 2*(m+1+1) = (2*m+1)+3 by omega]
      simp [indentB, List.replicate_succ]

/-- Indent bytes contain no newline. -/
theorem indentB_noNL (n : Nat) : ∀ x ∈ indentB n, x ≠ 0x0A := by
  intro x hx
  rw [indentB] at hx
  rw [List.eq_of_mem_replicate hx]
  decide

mutual
/-- Nested encoder output (at one or more levels of indent) obeys the
    newline discipline: no line below the top level can look like a
    top-level entry line. -/
theorem nlV : ∀ (v : JValue) (lvl : Nat), wfV v = true → nlProp (encVal v (lvl+1))
  | .null, _, _ => nlProp_of_noNL (by intro x hx; rw [encVal] at hx; fin_cases hx <;> decide)
  | .bool true, _, _ =>
      nlProp_of_noNL (by intro x hx; rw [encVal] at hx; fin_cases hx <;> decide)
  | .bool false, _, _ =>
      nlProp_of_noNL (by intro x hx; rw [encVal] at hx; fin_cases hx <;> decide)
  | .num s, _, hwf => by
      refine nlProp_of_noNL ?_
      intro x hx
      rw [wfV] at hwf
      cases s with
      | nil => rw [numOK] at hwf; cases hwf
      | cons b r =>
          rw [numOK, Bool.and_eq_true] at hwf
          have := List.all_eq_true.1 hwf.2 x hx
          have := numByte_lower (by simpa using this)
          omega
  | .str s, _, _ => by
      refine nlProp_of_noNL ?_
      intro x hx
      rw [encVal] at hx
      simp only [List.mem_cons, List.mem_append] at hx
      rcases hx with h | h | h
      · omega
      · exact escapeStr_noNL s x h
      · simp at h; omega
  | .arr .nil, _, _ =>
      nlProp_of_noNL (by intro x hx; rw [encVal] at hx; fin_cases hx <;> decide)
  | .arr (.cons x xs), lvl, hwf => by
      rw [wfV, wfA, Bool.and_eq_true] at hwf
      rw [encVal]
      rw [show (0x5B : Nat) :: ((0x0A :: (indentB (2*(lvl+1+1)) ++ encVal x (lvl+1+1))) ++
          (sepItems xs (lvl+1+1) ++ (0x0A :: (indentB (2*(lvl+1)) ++ [0x5D]))))
        = [0x5B] ++ ((0x0A :: (indentB (2*(lvl+1+1)) ++ encVal x (lvl+1+1))) ++
          (sepItems xs (lvl+1+1) ++ (0x0A :: (indentB (2*(lvl+1)) ++ [0x5D])))) by simp]
      refine nlProp_append (nlProp_of_noNL (by decide)) ?_
      refine nlProp_append ?_ (nlProp_append (nlO' xs lvl hwf.2) ?_)
      · refine nlProp_cons_nl (head3_indent_deep lvl _) ?_
        exact nlProp_append (nlProp_of_noNL (indentB_noNL _)) (nlV x (lvl+1) hwf.1)
      · refine nlProp_cons_nl (head3_indent_close lvl 0x5D [] (by decide)) ?_
        exact nlProp_append (nlProp_of_noNL (indentB_noNL _)) (nlProp_of_noNL (by decide))
  | .obj .nil, _, _ =>
      nlProp_of_noNL (by intro x hx; rw [encVal] at hx; fin_cases hx <;> decide)
  | .obj (.cons k v tl), lvl, hwf => by
      rw [wfV, wfO, Bool.and_eq_true] at hwf
      rw [encVal]
      rw [show (0x7B : Nat) :: ((0x0A :: (indentB (2*(lvl+1+1)) ++
          (0x22 :: (escapeStr k ++ (0x22 :: 0x3A :: 0x20 :: encVal v (lvl+1+1)))))) ++
          (sepEntries tl (lvl+1+1) ++ (0x0A :: (indentB (2*(lvl+1)) ++ [0x7D]))))
        = [0x7B] ++ ((0x0A :: (indentB (2*(lvl+1+1)) ++
          (0x22 :: (escapeStr k ++ (0x22 :: 0x3A :: 0x20 :: encVal v (lvl+1+1)))))) ++
          (sepEntries tl (lvl+1+1) ++ (0x0A :: (indentB (2*(lvl+1)) ++ [0x7D])))) by simp]
      refine nlProp_append (nlProp_of_noNL (by decide)) ?_
      refine nlProp_append ?_ (nlProp_append (nlE' tl lvl hwf.2) ?_)
      · refine nlProp_cons_nl (head3_indent_deep lvl _) ?_
        refine nlProp_append (nlProp_of_noNL (indentB_noNL _)) ?_
        rw [show (0x22 : Nat) :: (escapeStr k ++ (0x22 :: 0x3A :: 0x20 :: encVal v (lvl+1+1)))
          = [0x22] ++ (escapeStr k ++ ([0x22, 0x3A, 0x20] ++ encVal v (lvl+1+1))) by simp]
        refine nlProp_append (nlProp_of_noNL (by decide)) ?_
        refine nlProp_append (nlProp_of_noNL (escapeStr_noNL k)) ?_
        exact nlProp_append (nlProp_of_noNL (by decide)) (nlV v (lvl+1) hwf.1)
      · refine nlProp_cons_nl (head3_indent_close lvl 0x7D [] (by decide)) ?_
        exact nlProp_append (nlProp_of_noNL (indentB_noNL _)) (nlProp_of_noNL (by decide))
/-- Newline discipline of array continuation items two or more levels deep. -/
theorem nlO' : ∀ (xs : JArr) (lvl : Nat), wfA xs = true → nlProp (sepItems xs (lvl+2))
  | .nil, _, _ => nlProp_of_noNL (by intro x hx; rw [sepItems] at hx; simp at hx)
  | .cons y ys, lvl, hwf => by
      rw [wfA, Bool.and_eq_true] at hwf
      rw [sepItems]
      rw [show (0x2C : Nat) :: ((0x0A :: (indentB (2*(lvl+2)) ++ encVal y (lvl+2))) ++
          sepItems ys (lvl+2))
        = [0x2C] ++ ((0x0A :: (indentB (2*(lvl+2)) ++ encVal y (lvl+2))) ++
          sepItems ys (lvl+2)) by simp]
      refine nlProp_append (nlProp_of_noNL (by decide)) ?_
      refine nlProp_append ?_ (nlO' ys lvl hwf.2)
      refine nlProp_cons_nl (head3_indent_deep lvl _) ?_
      exact nlProp_append (nlProp_of_noNL (indentB_noNL _)) (nlV y (lvl+1) hwf.1)
/-- Newline discipline of object continuation entries two or more levels
    deep. -/
theorem nlE' : ∀ (ms : JObj) (lvl : Nat), wfO ms = true → nlProp (sepEntries ms (lvl+2))
  | .nil, _, _ => nlProp_of_noNL (by intro x hx; rw [sepEntries] at hx; simp at hx)
  | .cons k v tl, lvl, hwf => by
      rw [wfO, Bool.and_eq_true] at hwf
      rw [sepEntries]
      rw [show (0x2C : Nat) :: ((0x0A :: (indentB (2*(lvl+2)) ++
          (0x22 :: (escapeStr k ++ (0x22 :: 0x3A :: 0x20 :: encVal v (lvl+2)))))) ++
          sepEntries tl (lvl+2))
        = [0x2C] ++ ((0x0A :: (indentB (2*(lvl+2)) ++
          (0x22 :: (escapeStr k ++ (0x22 :: 0x3A :: 0x20 :: encVal v (lvl+2)))))) ++
          sepEntries tl (lvl+2)) by simp]
      refine nlProp_append (nlProp_of_noNL (by decide)) ?_
      refine nlProp_append ?_ (nlE' tl lvl hwf.2)
      refine nlProp_cons_nl (head3_indent_deep lvl _) ?_
      refine nlProp_append (nlProp_of_noNL (indentB_noNL _)) ?_
      rw [show (0x22 : Nat) :: (escapeStr k ++ (0x22 :: 0x3A :: 0x20 :: encVal v (lvl+2)))
        = [0x22] ++ (escapeStr k ++ ([0x22, 0x3A, 0x20] ++ encVal v (lvl+2))) by simp]
      refine nlProp_append (nlProp_of_noNL (by decide)) ?_
      refine nlProp_append (nlProp_of_noNL (escapeStr_noNL k)) ?_
      exact nlProp_append (nlProp_of_noNL (by decide)) (nlV v (lvl+1) hwf.1)
end

/-- A singleton equal to a snoc forces the elements equal. -/
theorem singleton_snoc {y z : Nat} {a2 : List Nat} (h : [y] = a2 ++ [z]) : y = z := by
  cases a2 with
  | nil => simpa using h
  | cons w a3 =>
      simp only [List.cons_append, List.cons.injEq] at h
      have := congrArg List.length h.2
      simp at this

/-- Dropping the head of a nonempty snoc-shaped list keeps the snoc shape. -/
theorem snoc_of_cons {y z : Nat} {a a2 : List Nat}
    (h : y :: a = a2 ++ [z]) (hne : a ≠ []) : ∃ a3, a = a3 ++ [z] := by
  cases a2 with
  | nil =>
      simp only [List.nil_append, List.cons.injEq] at h
      exact absurd h.2 hne
  | cons w a3 =>
      simp only [List.cons_append, List.cons.injEq] at h
      exact ⟨a3, h.2⟩

/-- Matching a quote-delimited pattern of safe bytes against an escaped text
    followed by a raw quote forces the text to equal the pattern. -/
theorem startsWith_key : ∀ (p kE u w : List Nat),
    (∀ x ∈ p, x ≠ 0x22 ∧ x ≠ 0x5C) → qProp kE → kE.head? ≠ some 0x22 →
    startsWith (p ++ 0x22 :: u) (kE ++ 0x22 :: w) = true → kE = p := by
  intro p
  induction p with
  | nil =>
      intro kE u w _ _ hh hsw
      cases kE with
      | nil => rfl
      | cons k0 k2 =>
          rw [List.nil_append, List.cons_append, startsWith, Bool.and_eq_true,
            beq_iff_eq] at hsw
          exact absurd (by rw [← hsw.1]; rfl) hh
  | cons p0 p2 ih =>
      intro kE u w hp hq hh hsw
      cases kE with
      | nil =>
          rw [List.nil_append, List.cons_append, startsWith, Bool.and_eq_true,
            beq_iff_eq] at hsw
          exact absurd hsw.1 (hp p0 (by simp)).1
      | cons k0 k2 =>
          rw [List.cons_append, List.cons_append, startsWith, Bool.and_eq_true,
            beq_iff_eq] at hsw
          have hk0 : k0 = p0 := hsw.1.symm
          have hk0ne : k0 ≠ 0x5C := by rw [hk0]; exact (hp p0 (by simp)).2
          have hq2 : qProp k2 := by
            intro a b heq
            obtain ⟨a2, ha2⟩ := hq (k0 :: a) b (by rw [heq]; rfl)
            cases a with
            | nil => exact absurd (singleton_snoc ha2) hk0ne
            | cons x a4 => exact snoc_of_cons ha2 (by simp)
          have hh2 : k2.head? ≠ some 0x22 := by
            intro hcon
            cases k2 with
            | nil => simp at hcon
            | cons z k3 =>
                simp only [List.head?_cons, Option.some.injEq] at hcon
                obtain ⟨a2, ha2⟩ := hq [k0] k3 (by rw [hcon]; rfl)
                exact absurd (singleton_snoc ha2) hk0ne
          rw [hk0, ih k2 u w (fun x hx => hp x (by simp [hx])) hq2 hh2 hsw.2]

/-- Safe bytes (printable, not quote, not backslash) escape to themselves. -/
theorem escapeStr_safe : ∀ l : List Nat,
    (∀ x ∈ l, 0x20 ≤ x ∧ x ≠ 0x22 ∧ x ≠ 0x5C) → escapeStr l = l := by
  intro l
  induction l with
  | nil => intro _; rfl
  | cons b l2 ih =>
      intro hs
      obtain ⟨h1, h2, h3⟩ := hs b (by simp)
      rw [escapeStr, ih (fun x hx => hs x (by simp [hx]))]
      rcases escapeByte_spec b with ⟨hb, _⟩ | ⟨hb, _⟩ | ⟨hb, _⟩ | ⟨_, _, _, he⟩
      · exact absurd hb h2
      · exact absurd hb h3
      · omega
      · rw [he]; rfl

/-- Escaped output made of safe bytes only comes from the identical source. -/
theorem escape_literal : ∀ k l : List Nat, escapeStr k = l →
    (∀ x ∈ l, 0x20 ≤ x ∧ x ≠ 0x22 ∧ x ≠ 0x5C) → k = l := by
  intro k
  induction k with
  | nil => intro l h _; rw [← h]; rfl
  | cons b k2 ih =>
      intro l h hs
      rw [escapeStr] at h
      rcases escapeByte_spec b with ⟨hb, he⟩ | ⟨hb, he⟩ | ⟨hb, he⟩ | ⟨_, _, _, he⟩ <;>
        rw [he] at h
      · exfalso
        have : (0x5C : Nat) ∈ l := by rw [← h]; simp
        exact (hs _ this).2.2 rfl
      · exfalso
        have : (0x5C : Nat) ∈ l := by rw [← h]; simp
        exact (hs _ this).2.2 rfl
      · exfalso
        have : (0x5C : Nat) ∈ l := by rw [← h]; simp
        exact (hs _ this).2.2 rfl
      · rw [List.cons_append, List.nil_append] at h
        cases l with
        | nil => cases h
        | cons x l2 =>
            rw [List.cons.injEq] at h
            rw [h.1, ih l2 h.2 (fun x hx => hs x (by simp [hx]))]

/-- Signature-value bytes are safe for escaping. -/
theorem base64_safe {x : Nat} (h : base64Byte x = true) :
    0x20 ≤ x ∧ x ≠ 0x22 ∧ x ≠ 0x5C := by
  rw [base64Byte] at h
  simp only [Bool.or_eq_true, Bool.and_eq_true, decide_eq_true_eq, beq_iff_eq] at h
  omega

/-- The bytes of the key `signature` are safe for escaping. -/
theorem sigKey_safe : ∀ x ∈ sigKeyBytes, 0x20 ≤ x ∧ x ≠ 0x22 ∧ x ≠ 0x5C := by decide

/-- Two spaces of indent, explicitly. -/
theorem indentB_two : indentB 2 = [0x20, 0x20] := rfl

/-- An entry chunk is right-associated into its seven parts. -/
theorem entryB_parts (k : List Nat) (v : JValue) (lvl : Nat) :
    entryB k v lvl = [0x0A] ++ (indentB (2*lvl) ++ ([0x22] ++ (escapeStr k ++
      ([0x22, 0x3A, 0x20] ++ encVal v lvl)))) := by
  rw [entryB]; simp

/-- Indent bytes are spaces, hence not commas. -/
theorem indentB_no2C (n : Nat) : ∀ x ∈ indentB n, x ≠ 0x2C := by
  intro x hx
  rw [indentB] at hx
  rw [List.eq_of_mem_replicate hx]
  decide

/-- No signature-field match can begin inside an entry chunk (at any indent
    level and for any key), whatever follows it. -/
theorem noStart_entryB {k : List Nat} {v : JValue} {m : Nat} {t : List Nat}
    (hwf : wfV v = true) : noStart (entryB k v (m+1)) t := by
  rw [entryB_parts]
  refine noStart_append (noStart_no2C (by decide) _) ?_
  refine noStart_append (noStart_no2C (indentB_no2C _) _) ?_
  refine noStart_append (noStart_no2C (by decide) _) ?_
  refine noStart_append ?_ ?_
  · refine noStart_of_nlProp (nlProp_of_noNL (escapeStr_noNL k)) (.inr ?_)
    simp
  · refine noStart_append (noStart_no2C (by decide) _) ?_
    refine noStart_of_nlProp (nlV v m hwf) (.inl ?_)
    obtain ⟨x, hx, hxne⟩ := encLast v (m+1) hwf
    rw [hx]
    simp [hxne]

/-- The separator comma before a top-level entry whose key is not
    `signature` cannot begin a signature-field match. -/
theorem noStart_sigSep {k : List Nat} {v : JValue} {t : List Nat}
    (hk : k ≠ sigKeyBytes) : noStart [0x2C] (entryB k v 1 ++ t) := by
  rintro s hne ⟨a, ha⟩
  have hs : s = [0x2C] := by
    cases a with
    | nil => simpa using ha.symm
    | cons a0 a2 =>
        rw [List.cons_append] at ha
        rw [List.cons.injEq] at ha
        obtain ⟨-, h2⟩ := ha
        cases a2 with
        | nil => simp at h2; exact absurd h2 hne
        | cons a1 a3 => rw [List.cons_append] at h2; cases h2
  subst hs
  by_contra hcon
  rw [Bool.not_eq_false] at hcon
  rw [entryB_parts, indentB_two, sigMark_eq] at hcon
  simp only [List.cons_append, List.nil_append, startsWith, beq_self_eq_true,
    Bool.true_and] at hcon
  have hkey := startsWith_key sigKeyBytes (escapeStr k) [0x3A, 0x20]
    (0x3A :: 0x20 :: (encVal v 1 ++ t)) (fun x hx => (sigKey_safe x hx).2)
    (escapeStr_qProp k)
    (escapeStr_headq k) (by
      rw [show sigKeyBytes ++ 0x22 :: [0x3A, 0x20]
        = [0x73, 0x69, 0x67, 0x6E, 0x61, 0x74, 0x75, 0x72, 0x65, 0x22, 0x3A, 0x20] from rfl]
      rw [show escapeStr k ++ 0x22 :: 0x3A :: 0x20 :: (encVal v 1 ++ t)
        = escapeStr k ++ ([0x22, 0x3A, 0x20] ++ (encVal v 1 ++ t)) by simp]
      simpa [List.append_assoc] using hcon)
  exact hk (escape_literal k sigKeyBytes hkey sigKey_safe)

/-- A continuation entry chunk is the separator comma followed by the entry
    bytes. -/
theorem sepEntries_cons (k : List Nat) (v : JValue) (tl : JObj) (lvl : Nat) :
    sepEntries (.cons k v tl) lvl = (0x2C :: entryB k v lvl) ++ sepEntries tl lvl := by
  rw [sepEntries, entryB]; simp

/-- A nonempty top-level object encodes as brace, first entry, continuation
    entries, and the closing line. -/
theorem encObj_cons (k : List Nat) (v : JValue) (tl : JObj) :
    encVal (.obj (.cons k v tl)) 0
      = (0x7B :: entryB k v 1) ++ (sepEntries tl 1 ++ [0x0A, 0x7D]) := by
  rw [encVal, entryB]
  simp [indentB]

/-- Stripping a literal initial run off itself leaves the continuation. -/
theorem dropStart_exact : ∀ p r : List Nat, dropStart p (p ++ r) = some r := by
  intro p
  induction p with
  | nil => intro r; rfl
  | cons p0 p2 ih => intro r; rw [List.cons_append, dropStart]; simp [ih]

/-- The base64 span of a signature value stops at the closing quote. -/
theorem spanB64_all : ∀ s t : List Nat, s.all base64Byte = true →
    spanB64 (s ++ 0x22 :: t) = (s, 0x22 :: t) := by
  intro s
  induction s with
  | nil => intro t _; rw [List.nil_append, spanB64]; rfl
  | cons b s2 ih =>
      intro t hall
      rw [List.all_cons, Bool.and_eq_true] at hall
      rw [List.cons_append, spanB64, if_pos hall.1, ih t hall.2]

/-- The full matcher fires on a canonical trailing signature entry, capturing
    exactly the value and leaving exactly the bytes after the entry. -/
theorem matchSig_entry {s : List Nat} (t : List Nat)
    (hs : s ≠ []) (hsb : s.all base64Byte = true) :
    matchSigAt ((0x2C :: entryB sigKeyBytes (.str s) 1) ++ t) = some (s, t) := by
  have hsafe : escapeStr s = s :=
    escapeStr_safe s (fun x hx => base64_safe (List.all_eq_true.1 hsb x hx))
  have hshape : (0x2C :: entryB sigKeyBytes (JValue.str s) 1) ++ t
      = sigMark ++ (0x22 :: (s ++ 0x22 :: t)) := by
    rw [entryB_parts, indentB_two, encVal, hsafe,
      show escapeStr sigKeyBytes = sigKeyBytes from rfl, sigMark_eq]
    simp [sigKeyBytes]
  rw [hshape, matchSigAt, dropStart_exact]
  simp only [spanB64_all s t hsb]
  cases s with
  | nil => exact absurd rfl hs
  | cons b s2 => rfl

/-- Continuation entries with no `signature` key contain no occurrence of
    the fixed pattern, up to and including the closing line. -/
theorem occursSig_sep_none : ∀ (tl : JObj), wfO tl = true → noSigKeys tl = true →
    occursSig (sepEntries tl 1 ++ [0x0A, 0x7D]) = false
  | .nil, _, _ => rfl
  | .cons k v tl2, hwf, hns => by
      rw [wfO, Bool.and_eq_true] at hwf
      rw [noSigKeys, Bool.and_eq_true, Bool.not_eq_true', beq_eq_false_iff_ne] at hns
      rw [sepEntries_cons, List.append_assoc]
      have hns1 : noStart (0x2C :: entryB k v 1) (sepEntries tl2 1 ++ [0x0A, 0x7D]) := by
        rw [show (0x2C :: entryB k v 1 : List Nat) = [0x2C] ++ entryB k v 1 from rfl]
        exact noStart_append (noStart_sigSep hns.1) (noStart_entryB hwf.1)
      rw [occursSig_chunk hns1]
      exact occursSig_sep_none tl2 hwf.2 hns.2

/-- A top-level object with no `signature` key encodes to a buffer with no
    occurrence of the fixed pattern. -/
theorem occursSig_encObj_none {ms : JObj} (hwf : wfO ms = true)
    (hns : noSigKeys ms = true) : occursSig (encVal (.obj ms) 0) = false := by
  cases ms with
  | nil => rfl
  | cons k v tl =>
      rw [wfO, Bool.and_eq_true] at hwf
      rw [noSigKeys, Bool.and_eq_true] at hns
      rw [encObj_cons]
      have hns1 : noStart (0x7B :: entryB k v 1) (sepEntries tl 1 ++ [0x0A, 0x7D]) := by
        rw [show (0x7B :: entryB k v 1 : List Nat) = [0x7B] ++ entryB k v 1 from rfl]
        exact noStart_append (noStart_no2C (by decide) _) (noStart_entryB hwf.1)
      rw [occursSig_chunk hns1]
      exact occursSig_sep_none tl hwf.2 hns.2

/-- Locating the one signature entry among the continuation entries: the
    extractor strips exactly that entry. -/
theorem findSig_sep : ∀ (tl : JObj) (j : Nat) (s : List Nat), wfO tl = true →
    objNth tl j = some (sigKeyBytes, .str s) → noSigExcept tl j = true →
    s ≠ [] → s.all base64Byte = true →
    findSig (sepEntries tl 1 ++ [0x0A, 0x7D])
      = some (sepEntries (objEraseIdx tl j) 1 ++ [0x0A, 0x7D], s)
  | .nil, j, s, _, hnth, _, _, _ => by rw [objNth] at hnth; cases hnth
  | .cons k v tl2, 0, s, hwf, hnth, hexc, hs, hsb => by
      rw [objNth, Option.some.injEq, Prod.mk.injEq] at hnth
      obtain ⟨hk, hv⟩ := hnth
      subst hk; subst hv
      rw [sepEntries_cons, List.append_assoc, List.cons_append, findSig,
        ← List.cons_append]
      rw [matchSig_entry _ hs hsb]
      rfl
  | .cons k v tl2, j2+1, s, hwf, hnth, hexc, hs, hsb => by
      rw [wfO, Bool.and_eq_true] at hwf
      rw [objNth] at hnth
      rw [noSigExcept, Bool.and_eq_true, Bool.not_eq_true', beq_eq_false_iff_ne] at hexc
      rw [sepEntries_cons, List.append_assoc]
      have hns1 : noStart (0x2C :: entryB k v 1)
          (sepEntries tl2 1 ++ [0x0A, 0x7D]) := by
        rw [show (0x2C :: entryB k v 1 : List Nat) = [0x2C] ++ entryB k v 1 from rfl]
        exact noStart_append (noStart_sigSep hexc.1) (noStart_entryB hwf.1)
      rw [findSig_chunk hns1]
      rw [findSig_sep tl2 j2 s hwf.2 hnth hexc.2 hs hsb]
      simp only [Option.map_some']
      rw [show objEraseIdx (.cons k v tl2) (j2+1) = .cons k v (objEraseIdx tl2 j2) from rfl]
      rw [sepEntries_cons]
      simp

/-- Locating the one signature entry of a top-level object: the extractor
    returns the encoding of the object without that entry, and the value. -/
theorem findSig_encObj {ms : JObj} {j : Nat} {s : List Nat} (hwf : wfO ms = true)
    (hnth : objNth ms j = some (sigKeyBytes, .str s)) (hj : 1 ≤ j)
    (hexc : noSigExcept ms j = true) (hs : s ≠ []) (hsb : s.all base64Byte = true) :
    findSig (encVal (.obj ms) 0) = some (encVal (.obj (objEraseIdx ms j)) 0, s) := by
  cases ms with
  | nil => rw [objNth] at hnth; cases hnth
  | cons k0 v0 tl =>
      cases j with
      | zero => omega
      | succ j2 =>
          rw [wfO, Bool.and_eq_true] at hwf
          rw [objNth] at hnth
          rw [noSigExcept, Bool.and_eq_true, Bool.not_eq_true', beq_eq_false_iff_ne] at hexc
          rw [encObj_cons]
          have hns1 : noStart (0x7B :: entryB k0 v0 1)
              (sepEntries tl 1 ++ [0x0A, 0x7D]) := by
            rw [show (0x7B :: entryB k0 v0 1 : List Nat) = [0x7B] ++ entryB k0 v0 1 from rfl]
            exact noStart_append (noStart_no2C (by decide) _) (noStart_entryB hwf.1)
          rw [findSig_chunk hns1]
          rw [findSig_sep tl j2 s hwf.2 hnth hexc.2 hs hsb]
          simp only [Option.map_some']
          rw [show objEraseIdx (.cons k0 v0 tl) (j2+1) = .cons k0 v0 (objEraseIdx tl j2) from rfl]
          rw [encObj_cons]

/-- Every byte a number span takes is a number byte. -/
theorem spanNum_all : ∀ l : List Nat, (spanNum l).1.all numByte = true := by
  intro l
  induction l with
  | nil => rfl
  | cons b r ih =>
      rw [spanNum]
      by_cases hb : numByte b = true
      · rw [if_pos hb]
        cases hsp : spanNum r with
        | mk ds rest =>
            rw [hsp] at ih
            simp only [List.all_cons, Bool.and_eq_true]
            exact ⟨hb, ih⟩
      · rw [if_neg hb]; rfl

/-- A number parsed after a digit-or-minus guard has well-formed text. -/
theorem parseNum_wf : ∀ (b : Nat) (l ds r : List Nat),
    (isDigit b || b == 0x2D) = true → parseNum (b :: l) = some (ds, r) →
    numOK ds = true := by
  intro b l ds r hg h
  have hnb : numByte b = true := by
    rw [numByte]
    rw [Bool.or_eq_true] at hg
    simp only [Bool.or_eq_true, decide_eq_true_eq, Bool.and_eq_true, beq_iff_eq]
    rcases hg with hg | hg
    · rw [isDigit, Bool.and_eq_true] at hg
      simp only [decide_eq_true_eq] at hg
      omega
    · simp only [beq_iff_eq] at hg; omega
  rw [parseNum, spanNum, if_pos hnb] at h
  cases hsp : spanNum l with
  | mk ds2 rest =>
      rw [hsp] at h
      simp only [Option.some.injEq, Prod.mk.injEq] at h
      have hall := spanNum_all l
      rw [hsp] at hall
      rw [← h.1, numOK]
      simp only [List.all_cons, Bool.and_eq_true]
      exact ⟨hg, hnb, hall⟩

/-- Everything the parser returns is well-formed (numbers keep a digit-led,
    number-byte-only source text). -/
theorem parse_wf_all : ∀ fuel : Nat,
    (∀ l v r, parseV fuel l = some (v, r) → wfV v = true) ∧
    (∀ l xs r, parseItems fuel l = some (xs, r) → wfA xs = true) ∧
    (∀ l ms r, parseEntries fuel l = some (ms, r) → wfO ms = true) := by
  intro fuel
  induction fuel with
  | zero =>
      refine ⟨fun l v r h => ?_, fun l xs r h => ?_, fun l ms r h => ?_⟩ <;>
        (first | rw [parseV] at h | rw [parseItems] at h | rw [parseEntries] at h) <;>
        cases h
  | succ f ih =>
      obtain ⟨ihV, ihA, ihO⟩ := ih
      refine ⟨fun l v r h => ?_, fun l xs r h => ?_, fun l ms r h => ?_⟩
      · rw [parseV] at h
        split at h
        · simp only [Option.some.injEq, Prod.mk.injEq] at h; rw [← h.1]; rfl
        · simp only [Option.some.injEq, Prod.mk.injEq] at h; rw [← h.1]; rfl
        · simp only [Option.some.injEq, Prod.mk.injEq] at h; rw [← h.1]; rfl
        · split at h
          · simp only [Option.some.injEq, Prod.mk.injEq] at h; rw [← h.1]; rfl
          · cases h
        · split at h
          · simp only [Option.some.injEq, Prod.mk.injEq] at h; rw [← h.1]; rfl
          · split at h
            · simp only [Option.some.injEq, Prod.mk.injEq] at h
              rw [← h.1, wfV]
              exact ihA _ _ _ ‹_›
            · cases h
        · split at h
          · simp only [Option.some.injEq, Prod.mk.injEq] at h; rw [← h.1]; rfl
          · split at h
            · simp only [Option.some.injEq, Prod.mk.injEq] at h
              rw [← h.1, wfV]
              exact ihO _ _ _ ‹_›
            · cases h
        · split at h
          · split at h
            · simp only [Option.some.injEq, Prod.mk.injEq] at h
              rw [← h.1, wfV]
              exact parseNum_wf _ _ _ _ ‹_› ‹_›
            · cases h
          · cases h
        · cases h
      · rw [parseItems] at h
        split at h
        · cases h
        · split at h
          · split at h
            · simp only [Option.some.injEq, Prod.mk.injEq] at h
              rw [← h.1, wfA, Bool.and_eq_true]
              exact ⟨ihV _ _ _ ‹_›, ihA _ _ _ ‹_›⟩
            · cases h
          · simp only [Option.some.injEq, Prod.mk.injEq] at h
            rw [← h.1, wfA, Bool.and_eq_true]
            exact ⟨ihV _ _ _ ‹_›, rfl⟩
          · cases h
      · rw [parseEntries] at h
        split at h
        · split at h
          · cases h
          · split at h
            · split at h
              · cases h
              · split at h
                · split at h
                  · simp only [Option.some.injEq, Prod.mk.injEq] at h
                    rw [← h.1, wfO, Bool.and_eq_true]
                    exact ⟨ihV _ _ _ ‹_›, ihO _ _ _ ‹_›⟩
                  · cases h
                · simp only [Option.some.injEq, Prod.mk.injEq] at h
                  rw [← h.1, wfO, Bool.and_eq_true]
                  exact ⟨ihV _ _ _ ‹_›, rfl⟩
                · cases h
            · cases h
        · cases h

/-- A parsed document is well-formed. -/
theorem parse_wf {l : List Nat} {v : JValue} (h : parse l = some v) : wfV v = true := by
  rw [parse] at h
  cases hp : parseV (l.length + 1) l with
  | none => rw [hp] at h; cases h
  | some p =>
      obtain ⟨v0, r0⟩ := p
      rw [hp] at h
      split at h
      · rename_i v1 r1 heq2
        simp only [Option.some.injEq, Prod.mk.injEq] at heq2
        obtain ⟨hv, hr⟩ := heq2
        subst hv
        subst hr
        split at h
        · injection h with h2
          rw [← h2]
          exact (parse_wf_all (l.length + 1)).1 l v0 r0 hp
        · cases h
      · cases h

/-- C7: canonicalizing a well-formed JSON object that carries no top-level
    `signature` field fails with SignatureFieldMissing, canonicalizing
    zero-length input fails with EmptyInput, and in each case the error is
    the entire result (no partial output is produced). -/
theorem claim_C7 :
    (∀ (l : List Nat) (ms : JObj), parse l = some (.obj ms) → noSigKeys ms = true →
      EncodePreserveOrder l = .error .SignatureFieldMissing) ∧
    EncodePreserveOrder [] = .error .EmptyInput := by
  refine ⟨?_, rfl⟩
  intro l ms hp hns
  have hwf : wfO ms = true := by
    have := parse_wf hp
    rwa [wfV] at this
  have hne : l.isEmpty = false := by
    cases l with
    | nil => rw [show parse ([] : List Nat) = none from rfl] at hp; cases hp
    | cons x xs => rfl
  have hocc : occursSig (encVal (.obj ms) 0) = false := occursSig_encObj_none hwf hns
  rw [EncodePreserveOrder, hne]
  simp only [Bool.false_eq_true, if_false, hp, ExtractAndStrip,
    findSig_none_of_occursSig hocc, hocc]

/-- Witness for C7: the object with the single field `foo` and the empty
    input. -/
theorem claim_C7_witness :
    parse [0x7B, 0x22, 0x66, 0x6F, 0x6F, 0x22, 0x3A, 0x22, 0x74, 0x65, 0x73, 0x74, 0x22, 0x7D]
      = some (.obj (.cons fooBytes (.str testBytes) .nil)) ∧
    noSigKeys (.cons fooBytes (.str testBytes) .nil) = true ∧
    EncodePreserveOrder
        [0x7B, 0x22, 0x66, 0x6F, 0x6F, 0x22, 0x3A, 0x22, 0x74, 0x65, 0x73, 0x74, 0x22, 0x7D]
      = .error .SignatureFieldMissing ∧
    EncodePreserveOrder [] = .error .EmptyInput :=
  ⟨rfl, by decide, claim_C7.1 _ _ rfl (by decide), claim_C7.2⟩

/-! ### Round-trip infrastructure: the parser recovers encoded values -/

/-- One-step unfolding of the value parser at successor fuel. -/
theorem parseV_step (f : Nat) (l : List Nat) :
    parseV (f+1) l
      = match skipWS l with
        | 0x6E :: 0x75 :: 0x6C :: 0x6C :: r => some (.null, r)
        | 0x74 :: 0x72 :: 0x75 :: 0x65 :: r => some (.bool true, r)
        | 0x66 :: 0x61 :: 0x6C :: 0x73 :: 0x65 :: r => some (.bool false, r)
        | 0x22 :: r =>
            match parseStrBody r with
            | some (s, r1) => some (.str s, r1)
            | none => none
        | 0x5B :: r =>
            match skipWS r with
            | 0x5D :: r1 => some (.arr .nil, r1)
            | _ =>
              match parseItems f r with
              | some (xs, r1) => some (.arr xs, r1)
              | none => none
        | 0x7B :: r =>
            match skipWS r with
            | 0x7D :: r1 => some (.obj .nil, r1)
            | _ =>
              match parseEntries f r with
              | some (ms, r1) => some (.obj ms, r1)
              | none => none
        | b :: r =>
            if isDigit b || b == 0x2D then
              match parseNum (b :: r) with
              | some (ds, r1) => some (.num ds, r1)
              | none => none
            else none
        | [] => none := rfl

/-- One-step unfolding of the item parser at successor fuel. -/
theorem parseItems_step (f : Nat) (l : List Nat) :
    parseItems (f+1) l
      = match parseV f l with
        | none => none
        | some (v, r) =>
          match skipWS r with
          | 0x2C :: r1 =>
              match parseItems f r1 with
              | some (vs, r2) => some (.cons v vs, r2)
              | none => none
          | 0x5D :: r1 => some (.cons v .nil, r1)
          | _ => none := rfl

/-- One-step unfolding of the entry parser at successor fuel. -/
theorem parseEntries_step (f : Nat) (l : List Nat) :
    parseEntries (f+1) l
      = match skipWS l with
        | 0x22 :: r =>
            match parseStrBody r with
            | none => none
            | some (k, r1) =>
              match skipWS r1 with
              | 0x3A :: r2 =>
                  match parseV f r2 with
                  | none => none
                  | some (v, r3) =>
                    match skipWS r3 with
                    | 0x2C :: r4 =>
                        match parseEntries f r4 with
                        | some (ms, r5) => some (.cons k v ms, r5)
                        | none => none
                    | 0x7D :: r4 => some (.cons k v .nil, r4)
                    | _ => none
              | _ => none
        | _ => none := rfl

/-- Leading whitespace of a non-whitespace-headed list is already gone. -/
theorem skipWS_notws {b : Nat} (hb : isWS b = false) (l : List Nat) :
    skipWS (b :: l) = b :: l := by
  rw [skipWS, if_neg (by simp [hb])]

/-- Whitespace skipping passes over a whitespace byte. -/
theorem skipWS_ws {b : Nat} (hb : isWS b = true) (l : List Nat) :
    skipWS (b :: l) = skipWS l := by
  rw [skipWS, if_pos hb]

/-- Whitespace skipping passes over an indent. -/
theorem skipWS_indent : ∀ (n : Nat) (l : List Nat), skipWS (indentB n ++ l) = skipWS l := by
  intro n
  induction n with
  | zero => intro l; rfl
  | succ m ih =>
      intro l
      rw [show indentB (m+1) = 0x20 :: indentB m from by
        rw [indentB, indentB, List.replicate_succ]]
      rw [List.cons_append, skipWS_ws (by rfl)]
      exact ih l

/-- Whitespace skipping is idempotent. -/
theorem skipWS_idem : ∀ l : List Nat, skipWS (skipWS l) = skipWS l := by
  intro l
  induction l with
  | nil => rfl
  | cons b r ih =>
      by_cases hb : isWS b = true
      · rw [skipWS_ws hb]; exact ih
      · rw [skipWS_notws (by simpa using hb), skipWS_notws (by simpa using hb)]

/-- The value parser pre-skips whitespace. -/
theorem parseV_skip (f : Nat) (l : List Nat) :
    parseV (f+1) l = parseV (f+1) (skipWS l) := by
  rw [parseV_step, parseV_step, skipWS_idem]

/-- The hex digit byte of a small value decodes back to it. -/
theorem hexNib_hexDigitByte (n : Nat) (h : n < 16) : hexNib (hexDigitByte n) = some n := by
  rw [hexDigitByte]
  split
  · rw [hexNib, if_pos (by omega)]
    congr 1
    omega
  · rw [hexNib, if_neg (by omega), if_pos (by omega)]
    congr 1
    omega

/-- The hex digit byte of a small value is a hex digit. -/
theorem isHex_hexDigitByte (n : Nat) (h : n < 16) : isHex (hexDigitByte n) = true := by
  rw [isHex, hexNib_hexDigitByte n h]; rfl

/-- The two-digit hex escape of a control byte decodes back to it. -/
theorem hexVal4_ctrl (b : Nat) (h : b < 0x20) :
    hexVal4 0x30 0x30 (hexDigitByte (b / 16)) (hexDigitByte (b % 16)) = b := by
  rw [hexVal4, hexNib_hexDigitByte (b / 16) (by omega), hexNib_hexDigitByte (b % 16) (by omega)]
  simp [hexNib]
  omega

/-- Parsing a string body inverts escaping, stopping at the closing quote. -/
theorem parseStrBody_escape : ∀ s t : List Nat,
    parseStrBody (escapeStr s ++ 0x22 :: t) = some (s, t) := by
  intro s
  induction s with
  | nil => intro t; rfl
  | cons b s2 ih =>
      intro t
      rw [escapeStr, List.append_assoc]
      rcases escapeByte_spec b with ⟨hb, he⟩ | ⟨hb, he⟩ | ⟨hb, he⟩ | ⟨hge, h22, h5C, he⟩ <;>
        rw [he]
      · subst hb
        simp [parseStrBody, escDecode, ih t]
      · subst hb
        simp [parseStrBody, escDecode, ih t]
      · have hh1 : isHex (hexDigitByte (b / 16)) = true := isHex_hexDigitByte _ (by omega)
        have hh2 : isHex (hexDigitByte (b % 16)) = true := isHex_hexDigitByte _ (by omega)
        simp only [List.cons_append, List.nil_append, parseStrBody]
        rw [if_pos (by rw [hh1, hh2]; decide)]
        simp only [List.append_eq, List.nil_append]
        rw [ih t, hexVal4_ctrl b hb]
        rw [utf8Encode, if_pos (by omega)]
        rfl
      · simp only [List.cons_append, List.nil_append]
        rw [show parseStrBody (b :: (escapeStr s2 ++ 0x22 :: t))
            = match parseStrBody (escapeStr s2 ++ 0x22 :: t) with
              | some (s, r1) => some (b :: s, r1)
              | none => none from by
          rw [parseStrBody]
          all_goals intros
          all_goals first | exact h22 ‹_› | exact h5C ‹_›]
        rw [ih t]


/-- The number span of well-formed number text stops at a non-number byte. -/
theorem spanNum_exact : ∀ s t : List Nat, s.all numByte = true →
    (∀ b t2, t = b :: t2 → numByte b = false) → spanNum (s ++ t) = (s, t) := by
  intro s
  induction s with
  | nil =>
      intro t _ hstop
      cases t with
      | nil => rfl
      | cons b t2 => rw [List.nil_append, spanNum, if_neg (by simp [hstop b t2 rfl])]
  | cons b s2 ih =>
      intro t hall hstop
      rw [List.all_cons, Bool.and_eq_true] at hall
      rw [List.cons_append, spanNum, if_pos hall.1, ih t hall.2 hstop]

/-- Parsing a number recovers well-formed number text exactly. -/
theorem parseNum_enc (s t : List Nat) (hok : numOK s = true)
    (hstop : ∀ b t2, t = b :: t2 → numByte b = false) :
    parseNum (s ++ t) = some (s, t) := by
  cases s with
  | nil => rw [numOK] at hok; cases hok
  | cons b s2 =>
      rw [numOK, Bool.and_eq_true] at hok
      rw [parseNum, spanNum_exact (b :: s2) t hok.2 hstop]

/-- Dispatch of the value parser into the number branch for bytes that match
    no other construct. -/
theorem parseV_numD (f b : Nat) (r : List Nat) (hws : isWS b = false)
    (h1 : b ≠ 0x6E) (h2 : b ≠ 0x74) (h3 : b ≠ 0x66) (h4 : b ≠ 0x22) (h5 : b ≠ 0x5B)
    (h6 : b ≠ 0x7B) :
    parseV (f+1) (b :: r)
      = if isDigit b || b == 0x2D then
          match parseNum (b :: r) with
          | some (ds, r1) => some (.num ds, r1)
          | none => none
        else none := by
  rw [parseV_step, skipWS_notws hws]
  split
  all_goals rename_i heq
  all_goals first
    | (rw [List.cons.injEq] at heq
       first
         | exact absurd heq.1 h1
         | exact absurd heq.1 h2
         | exact absurd heq.1 h3
         | exact absurd heq.1 h4
         | exact absurd heq.1 h5
         | exact absurd heq.1 h6
         | (obtain ⟨hb, hr⟩ := heq; subst hb; subst hr; rfl))
    | cases heq

/-- Every encoded well-formed value begins with a printable byte that closes
    no bracket. -/
theorem encVal_head (v : JValue) (lvl : Nat) (hwf : wfV v = true) :
    ∃ b t2, encVal v lvl = b :: t2 ∧ isWS b = false ∧ b ≠ 0x5D ∧ b ≠ 0x7D := by
  cases v with
  | null => exact ⟨0x6E, _, rfl, by decide, by decide, by decide⟩
  | bool b => cases b with
      | true => exact ⟨0x74, _, rfl, by decide, by decide, by decide⟩
      | false => exact ⟨0x66, _, rfl, by decide, by decide, by decide⟩
  | num s =>
      rw [wfV] at hwf
      cases s with
      | nil => rw [numOK] at hwf; cases hwf
      | cons b s2 =>
          rw [numOK, Bool.and_eq_true, Bool.or_eq_true] at hwf
          refine ⟨b, s2, rfl, ?_, ?_, ?_⟩ <;>
            (rcases hwf.1 with hd | hd
             · rw [isDigit, Bool.and_eq_true] at hd
               simp only [decide_eq_true_eq] at hd
               first
                 | (rw [isWS]; simp only [Bool.or_eq_false_iff, beq_eq_false_iff_ne]
                    refine ⟨⟨⟨?_, ?_⟩, ?_⟩, ?_⟩ <;> omega)
                 | omega
             · simp only [beq_iff_eq] at hd
               first
                 | (rw [isWS]; simp only [Bool.or_eq_false_iff, beq_eq_false_iff_ne]
                    refine ⟨⟨⟨?_, ?_⟩, ?_⟩, ?_⟩ <;> omega)
                 | omega)
  | str s => exact ⟨0x22, _, rfl, by decide, by decide, by decide⟩
  | arr xs =>
      cases xs with
      | nil => exact ⟨0x5B, _, rfl, by decide, by decide, by decide⟩
      | cons x xs2 => exact ⟨0x5B, _, rfl, by decide, by decide, by decide⟩
  | obj ms =>
      cases ms with
      | nil => exact ⟨0x7B, _, rfl, by decide, by decide, by decide⟩
      | cons k v tl => exact ⟨0x7B, _, rfl, by decide, by decide, by decide⟩


/-- A byte that starts well-formed number text is printable and distinct
    from every other construct head. -/
theorem numHead_props {b : Nat} (h : (isDigit b || b == 0x2D) = true) :
    isWS b = false ∧ b ≠ 0x6E ∧ b ≠ 0x74 ∧ b ≠ 0x66 ∧ b ≠ 0x22 ∧ b ≠ 0x5B ∧ b ≠ 0x7B := by
  rw [Bool.or_eq_true] at h
  have hb : (0x30 ≤ b ∧ b ≤ 0x39) ∨ b = 0x2D := by
    rcases h with h | h
    · rw [isDigit, Bool.and_eq_true] at h
      simp only [decide_eq_true_eq] at h
      exact .inl h
    · simp only [beq_iff_eq] at h
      exact .inr h
  refine ⟨?_, ?_, ?_, ?_, ?_, ?_, ?_⟩
  · rw [isWS]
    simp only [Bool.or_eq_false_iff, beq_eq_false_iff_ne]
    omega
  all_goals omega

/-- Every array spine has positive size. -/
theorem jarr_sizeOf_pos (a : JArr) : 0 < sizeOf a := by
  cases a <;> simp

/-- Every object spine has positive size. -/
theorem jobj_sizeOf_pos (o : JObj) : 0 < sizeOf o := by
  cases o <;> simp

mutual
/-- Round trip of one value: the parser consumes exactly its encoding and
    returns it, at any indent level, whenever the continuation cannot extend
    a number literal. -/
theorem rtV : ∀ (v : JValue) (lvl fuel : Nat) (rest : List Nat), wfV v = true →
    (encVal v lvl).length < fuel →
    (∀ b t2, rest = b :: t2 → numByte b = false) →
    parseV fuel (encVal v lvl ++ rest) = some (v, rest)
  | .null, lvl, fuel, rest, _, hf, _ => by
      cases fuel with
      | zero => rw [encVal] at hf; simp at hf
      | succ f => rfl
  | .bool true, lvl, fuel, rest, _, hf, _ => by
      cases fuel with
      | zero => rw [encVal] at hf; simp at hf
      | succ f => rfl
  | .bool false, lvl, fuel, rest, _, hf, _ => by
      cases fuel with
      | zero => rw [encVal] at hf; simp at hf
      | succ f => rfl
  | .num s, lvl, fuel, rest, hwf, hf, hstop => by
      rw [wfV] at hwf
      cases s with
      | nil => rw [numOK] at hwf; cases hwf
      | cons b s2 =>
          cases fuel with
          | zero => rw [encVal] at hf; simp at hf
          | succ f =>
              have hok := hwf
              rw [numOK, Bool.and_eq_true] at hwf
              obtain ⟨hws, hn1, hn2, hn3, hn4, hn5, hn6⟩ := numHead_props hwf.1
              rw [show encVal (.num (b :: s2)) lvl = b :: s2 from rfl, List.cons_append,
                parseV_numD f b _ hws hn1 hn2 hn3 hn4 hn5 hn6, if_pos (by rw [hwf.1]),
                show b :: (s2 ++ rest) = (b :: s2) ++ rest from rfl,
                parseNum_enc (b :: s2) rest hok hstop]
  | .str s, lvl, fuel, rest, _, hf, _ => by
      cases fuel with
      | zero => rw [encVal] at hf; simp at hf
      | succ f =>
          rw [show encVal (.str s) lvl ++ rest = 0x22 :: (escapeStr s ++ (0x22 :: rest)) from by
            rw [encVal]; simp]
          rw [show parseV (f+1) (0x22 :: (escapeStr s ++ (0x22 :: rest)))
              = match parseStrBody (escapeStr s ++ 0x22 :: rest) with
                | some (s1, r1) => some (.str s1, r1)
                | none => none from rfl]
          rw [parseStrBody_escape s rest]
  | .arr .nil, lvl, fuel, rest, _, hf, _ => by
      cases fuel with
      | zero => rw [encVal] at hf; simp at hf
      | succ f => rfl
  | .arr (.cons x xs), lvl, fuel, rest, hwf, hf, _ => by
      rw [wfV, wfA, Bool.and_eq_true] at hwf
      cases fuel with
      | zero => rw [encVal] at hf; simp at hf
      | succ f =>
          have harg : encVal (.arr (.cons x xs)) lvl ++ rest
              = 0x5B :: ((0x0A :: (indentB (2*(lvl+1)) ++ encVal x (lvl+1))) ++
                (sepItems xs (lvl+1) ++ (0x0A :: (indentB (2*lvl) ++ (0x5D :: rest))))) := by
            rw [encVal]; simp
          have hflen : (0x0A :: (indentB (2*(lvl+1)) ++ encVal x (lvl+1))).length +
              (sepItems xs (lvl+1)).length < f := by
            rw [encVal] at hf
            simp only [List.length_cons, List.length_append, indentB,
              List.length_replicate] at hf ⊢
            omega
          have hitems := rtA x xs lvl f rest hwf.1 hwf.2 hflen
          rw [harg]
          obtain ⟨b, t2, hbt, hbw, hb5D, _⟩ := encVal_head x (lvl+1) hwf.1
          have hsk : skipWS ((0x0A :: (indentB (2*(lvl+1)) ++ encVal x (lvl+1))) ++
              (sepItems xs (lvl+1) ++ (0x0A :: (indentB (2*lvl) ++ (0x5D :: rest)))))
              = b :: (t2 ++ (sepItems xs (lvl+1) ++ (0x0A :: (indentB (2*lvl) ++ (0x5D :: rest))))) := by
            rw [List.cons_append, skipWS_ws (by rfl), List.append_assoc, skipWS_indent,
              hbt, List.cons_append, skipWS_notws hbw]
          rw [show parseV (f+1) (0x5B :: ((0x0A :: (indentB (2*(lvl+1)) ++ encVal x (lvl+1))) ++
              (sepItems xs (lvl+1) ++ (0x0A :: (indentB (2*lvl) ++ (0x5D :: rest))))))
              = match skipWS ((0x0A :: (indentB (2*(lvl+1)) ++ encVal x (lvl+1))) ++
                  (sepItems xs (lvl+1) ++ (0x0A :: (indentB (2*lvl) ++ (0x5D :: rest))))) with
                | 0x5D :: r1 => some (.arr .nil, r1)
                | _ =>
                  match parseItems f ((0x0A :: (indentB (2*(lvl+1)) ++ encVal x (lvl+1))) ++
                      (sepItems xs (lvl+1) ++ (0x0A :: (indentB (2*lvl) ++ (0x5D :: rest))))) with
                  | some (xs1, r1) => some (.arr xs1, r1)
                  | none => none from rfl]
          rw [hsk, hitems]
          split
          · rename_i heq
            rw [List.cons.injEq] at heq
            exact absurd heq.1 hb5D
          · rfl
  | .obj .nil, lvl, fuel, rest, _, hf, _ => by
      cases fuel with
      | zero => rw [encVal] at hf; simp at hf
      | succ f => rfl
  | .obj (.cons k v tl), lvl, fuel, rest, hwf, hf, _ => by
      rw [wfV, wfO, Bool.and_eq_true] at hwf
      cases fuel with
      | zero => rw [encVal] at hf; simp at hf
      | succ f =>
          have harg : encVal (.obj (.cons k v tl)) lvl ++ rest
              = 0x7B :: (entryB k v (lvl+1) ++
                (sepEntries tl (lvl+1) ++ (0x0A :: (indentB (2*lvl) ++ (0x7D :: rest))))) := by
            rw [encVal, entryB]; simp
          have hflen : (entryB k v (lvl+1)).length + (sepEntries tl (lvl+1)).length < f := by
            rw [encVal] at hf
            rw [entryB_parts]
            simp only [List.length_cons, List.length_append, indentB,
              List.length_replicate, List.length_nil] at hf ⊢
            omega
          have hentries := rtO k v tl lvl f rest hwf.1 hwf.2 hflen
          rw [harg]
          have hsk : skipWS (entryB k v (lvl+1) ++
              (sepEntries tl (lvl+1) ++ (0x0A :: (indentB (2*lvl) ++ (0x7D :: rest)))))
              = 0x22 :: ((escapeStr k ++ (0x22 :: 0x3A :: 0x20 :: encVal v (lvl+1))) ++
                (sepEntries tl (lvl+1) ++ (0x0A :: (indentB (2*lvl) ++ (0x7D :: rest))))) := by
            rw [entryB, List.cons_append, skipWS_ws (by rfl), List.append_assoc, skipWS_indent,
              List.cons_append, skipWS_notws (by rfl)]
          rw [show parseV (f+1) (0x7B :: (entryB k v (lvl+1) ++
              (sepEntries tl (lvl+1) ++ (0x0A :: (indentB (2*lvl) ++ (0x7D :: rest))))))
              = match skipWS (entryB k v (lvl+1) ++
                  (sepEntries tl (lvl+1) ++ (0x0A :: (indentB (2*lvl) ++ (0x7D :: rest))))) with
                | 0x7D :: r1 => some (.obj .nil, r1)
                | _ =>
                  match parseEntries f (entryB k v (lvl+1) ++
                      (sepEntries tl (lvl+1) ++ (0x0A :: (indentB (2*lvl) ++ (0x7D :: rest))))) with
                  | some (ms1, r1) => some (.obj ms1, r1)
                  | none => none from rfl]
          rw [hsk, hentries]
termination_by v _ _ _ _ _ _ => sizeOf v
/-- Round trip of nonempty array items: the item parser consumes the first
    item line, the continuation items, and the closing bracket line. -/
theorem rtA : ∀ (x : JValue) (xs : JArr) (lvl fuel : Nat) (rest : List Nat),
    wfV x = true → wfA xs = true →
    (0x0A :: (indentB (2*(lvl+1)) ++ encVal x (lvl+1))).length +
      (sepItems xs (lvl+1)).length < fuel →
    parseItems fuel ((0x0A :: (indentB (2*(lvl+1)) ++ encVal x (lvl+1))) ++
        (sepItems xs (lvl+1) ++ (0x0A :: (indentB (2*lvl) ++ (0x5D :: rest)))))
      = some (.cons x xs, rest)
  | x, xs, lvl, 0, rest, _, _, hf => by omega
  | x, xs, lvl, f+1, rest, hwx, hwxs, hf => by
      rw [parseItems_step]
      cases f with
      | zero =>
          exfalso
          simp only [List.length_cons] at hf
          omega
      | succ f2 =>
          have hsk : skipWS ((0x0A :: (indentB (2*(lvl+1)) ++ encVal x (lvl+1))) ++
              (sepItems xs (lvl+1) ++ (0x0A :: (indentB (2*lvl) ++ (0x5D :: rest)))))
              = skipWS (encVal x (lvl+1) ++
                (sepItems xs (lvl+1) ++ (0x0A :: (indentB (2*lvl) ++ (0x5D :: rest))))) := by
            rw [List.cons_append, skipWS_ws (by rfl), List.append_assoc, skipWS_indent]
          have hstop : ∀ b t2, sepItems xs (lvl+1) ++
              (0x0A :: (indentB (2*lvl) ++ (0x5D :: rest))) = b :: t2 → numByte b = false := by
            intro b t2 heq
            cases xs with
            | nil =>
                rw [sepItems, List.nil_append, List.cons.injEq] at heq
                rw [← heq.1]; rfl
            | cons y ys =>
                rw [sepItems, List.cons_append, List.cons.injEq] at heq
                rw [← heq.1]; rfl
          have hv : parseV (f2+1) (encVal x (lvl+1) ++
              (sepItems xs (lvl+1) ++ (0x0A :: (indentB (2*lvl) ++ (0x5D :: rest)))))
              = some (x, sepItems xs (lvl+1) ++ (0x0A :: (indentB (2*lvl) ++ (0x5D :: rest)))) := by
            refine rtV x (lvl+1) (f2+1) _ hwx ?_ hstop
            simp only [List.length_cons, List.length_append] at hf
            omega
          rw [parseV_skip, hsk, ← parseV_skip]
          simp only [hv]
          cases xs with
          | nil =>
              simp only [show skipWS (sepItems .nil (lvl+1) ++
                  (0x0A :: (indentB (2*lvl) ++ (0x5D :: rest)))) = 0x5D :: rest from by
                rw [sepItems, List.nil_append, skipWS_ws (by rfl), skipWS_indent,
                  skipWS_notws (by rfl)]]
          | cons y ys =>
              rw [show sepItems (.cons y ys) (lvl+1) ++
                  (0x0A :: (indentB (2*lvl) ++ (0x5D :: rest)))
                  = 0x2C :: (((0x0A :: (indentB (2*(lvl+1)) ++ encVal y (lvl+1))) ++
                    sepItems ys (lvl+1)) ++ (0x0A :: (indentB (2*lvl) ++ (0x5D :: rest)))) from by
                rw [sepItems]; simp]
              simp only [skipWS_notws (show isWS 0x2C = false from rfl)]
              have hys := rtA y ys lvl (f2+1) rest
                (by rw [wfA, Bool.and_eq_true] at hwxs; exact hwxs.1)
                (by rw [wfA, Bool.and_eq_true] at hwxs; exact hwxs.2)
                (by
                  rw [sepItems] at hf
                  simp only [List.length_cons, List.length_append] at hf ⊢
                  omega)
              simp only [List.cons_append, List.append_assoc] at hys ⊢
              simp only [hys]
termination_by x xs _ _ _ _ _ _ => sizeOf x + sizeOf xs
decreasing_by
  all_goals first
    | decreasing_tactic
    | (simp_wf
       have hpos := jarr_sizeOf_pos xs
       omega)
/-- Round trip of nonempty object entries: the entry parser consumes the
    first entry line, the continuation entries, and the closing brace line. -/
theorem rtO : ∀ (k : List Nat) (v : JValue) (tl : JObj) (lvl fuel : Nat) (rest : List Nat),
    wfV v = true → wfO tl = true →
    (entryB k v (lvl+1)).length + (sepEntries tl (lvl+1)).length < fuel →
    parseEntries fuel (entryB k v (lvl+1) ++
        (sepEntries tl (lvl+1) ++ (0x0A :: (indentB (2*lvl) ++ (0x7D :: rest)))))
      = some (.cons k v tl, rest)
  | k, v, tl, lvl, 0, rest, _, _, hf => by omega
  | k, v, tl, lvl, f+1, rest, hwv, hwtl, hf => by
      rw [parseEntries_step]
      cases f with
      | zero =>
          exfalso
          rw [entryB_parts] at hf
          simp only [List.length_cons, List.length_append] at hf
          omega
      | succ f2 =>
          have hsk : skipWS (entryB k v (lvl+1) ++
              (sepEntries tl (lvl+1) ++ (0x0A :: (indentB (2*lvl) ++ (0x7D :: rest)))))
              = 0x22 :: (escapeStr k ++ (0x22 :: (0x3A :: (0x20 :: (encVal v (lvl+1) ++
                (sepEntries tl (lvl+1) ++ (0x0A :: (indentB (2*lvl) ++ (0x7D :: rest))))))))) := by
            rw [entryB, List.cons_append, skipWS_ws (by rfl), List.append_assoc, skipWS_indent,
              List.cons_append, skipWS_notws (by rfl)]
            simp
          simp only [hsk]
          simp only [parseStrBody_escape]
          simp only [skipWS_notws (show isWS 0x3A = false from rfl)]
          have hstop : ∀ b t2, sepEntries tl (lvl+1) ++
              (0x0A :: (indentB (2*lvl) ++ (0x7D :: rest))) = b :: t2 → numByte b = false := by
            intro b t2 heq
            cases tl with
            | nil =>
                rw [sepEntries, List.nil_append, List.cons.injEq] at heq
                rw [← heq.1]; rfl
            | cons k2 v2 tl2 =>
                rw [sepEntries, List.cons_append, List.cons.injEq] at heq
                rw [← heq.1]; rfl
          have hv : parseV (f2+1) (0x20 :: (encVal v (lvl+1) ++
              (sepEntries tl (lvl+1) ++ (0x0A :: (indentB (2*lvl) ++ (0x7D :: rest))))))
              = some (v, sepEntries tl (lvl+1) ++ (0x0A :: (indentB (2*lvl) ++ (0x7D :: rest)))) := by
            rw [parseV_skip, skipWS_ws (by rfl)]
            rw [← parseV_skip]
            refine rtV v (lvl+1) (f2+1) _ hwv ?_ hstop
            rw [entryB_parts] at hf
            simp only [List.length_cons, List.length_append] at hf
            omega
          simp only [hv]
          cases tl with
          | nil =>
              simp only [show skipWS (sepEntries .nil (lvl+1) ++
                  (0x0A :: (indentB (2*lvl) ++ (0x7D :: rest)))) = 0x7D :: rest from by
                rw [sepEntries, List.nil_append, skipWS_ws (by rfl), skipWS_indent,
                  skipWS_notws (by rfl)]]
          | cons k2 v2 tl2 =>
              rw [show sepEntries (.cons k2 v2 tl2) (lvl+1) ++
                  (0x0A :: (indentB (2*lvl) ++ (0x7D :: rest)))
                  = 0x2C :: ((entryB k2 v2 (lvl+1) ++ sepEntries tl2 (lvl+1)) ++
                    (0x0A :: (indentB (2*lvl) ++ (0x7D :: rest)))) from by
                rw [sepEntries_cons]; simp]
              simp only [skipWS_notws (show isWS 0x2C = false from rfl)]
              have htl := rtO k2 v2 tl2 lvl (f2+1) rest
                (by rw [wfO, Bool.and_eq_true] at hwtl; exact hwtl.1)
                (by rw [wfO, Bool.and_eq_true] at hwtl; exact hwtl.2)
                (by
                  rw [sepEntries_cons] at hf
                  simp only [List.length_cons, List.length_append] at hf ⊢
                  omega)
              simp only [entryB, List.cons_append, List.append_assoc] at htl ⊢
              simp only [htl]
termination_by _ v tl _ _ _ _ _ _ => sizeOf v + sizeOf tl
decreasing_by
  all_goals first
    | decreasing_tactic
    | (simp_wf
       have hpos := jobj_sizeOf_pos tl
       omega)
end


/-- The canonical encoding of a well-formed value parses back to it. -/
theorem parse_enc (v : JValue) (h : wfV v = true) : parse (encVal v 0) = some v := by
  rw [parse]
  have hrt := rtV v 0 ((encVal v 0).length + 1) [] h (by omega)
    (by intro b t2 heq; cases heq)
  rw [List.append_nil] at hrt
  simp only [hrt]
  rfl

/-- Taking all but the final two bytes recovers the front of the buffer. -/
theorem take_append_two : ∀ (xs : List Nat) (a b : Nat),
    (xs ++ [a, b]).take ((xs ++ [a, b]).length - 2) = xs
  | [], a, b => rfl
  | x :: xs2, a, b => by
      have hlen : (x :: (xs2 ++ [a, b])).length - 2 = ((xs2 ++ [a, b]).length - 2) + 1 := by
        simp only [List.length_cons, List.length_append]
        omega
      rw [List.cons_append, hlen, List.take_succ_cons, take_append_two xs2 a b]

/-- Continuation entries of an appended object: the new entry chunk lands at
    the end. -/
theorem sepEntries_snoc : ∀ (tl : JObj) (k : List Nat) (v : JValue) (lvl : Nat),
    sepEntries (objSnoc tl k v) lvl
      = sepEntries tl lvl ++ (0x2C :: (0x0A :: (indentB (2*lvl) ++
          (0x22 :: (escapeStr k ++ (0x22 :: 0x3A :: 0x20 :: encVal v lvl))))))
  | .nil, k, v, lvl => by
      rw [objSnoc, sepEntries, sepEntries, sepEntries]
      simp
  | .cons k0 v0 tl2, k, v, lvl => by
      rw [objSnoc, sepEntries, sepEntries_snoc tl2 k v lvl, sepEntries]
      simp

/-- Re-attaching a signature made of safe bytes to a nonempty canonical
    object yields exactly the canonical encoding of the object with the
    signature entry appended. -/
theorem attach_encObj (k0 : List Nat) (v0 : JValue) (tl : JObj) (s : List Nat)
    (hsb : s.all base64Byte = true) :
    attachSig (encVal (.obj (.cons k0 v0 tl)) 0) s
      = encVal (.obj (objSnoc (.cons k0 v0 tl) sigKeyBytes (.str s))) 0 := by
  have hesc : escapeStr s = s := by
    refine escapeStr_safe s (fun x hx => base64_safe ?_)
    rw [List.all_eq_true] at hsb
    exact hsb x hx
  rw [attachSig, encObj_cons,
    show (0x7B :: entryB k0 v0 1) ++ (sepEntries tl 1 ++ [0x0A, 0x7D])
      = ((0x7B :: entryB k0 v0 1) ++ sepEntries tl 1) ++ [0x0A, 0x7D] from by simp,
    take_append_two]
  rw [objSnoc, encObj_cons, sepEntries_snoc]
  rw [sigEntryBytes, show escapeStr sigKeyBytes = sigKeyBytes from rfl,
    show encVal (.str s) 1 = 0x22 :: (escapeStr s ++ [0x22]) from rfl, hesc]
  simp [indentB, sigKeyBytes]

/-- Erasing an entry preserves well-formedness. -/
theorem wfO_erase : ∀ (ms : JObj) (j : Nat), wfO ms = true →
    wfO (objEraseIdx ms j) = true
  | .nil, _, _ => rfl
  | .cons k v tl, 0, h => by
      rw [objEraseIdx]
      rw [wfO, Bool.and_eq_true] at h
      exact h.2
  | .cons k v tl, j+1, h => by
      rw [objEraseIdx, wfO, Bool.and_eq_true]
      rw [wfO, Bool.and_eq_true] at h
      exact ⟨h.1, wfO_erase tl j h.2⟩

/-- Appending a well-formed entry preserves well-formedness. -/
theorem wfO_snoc : ∀ (ms : JObj) (k : List Nat) (v : JValue), wfO ms = true →
    wfV v = true → wfO (objSnoc ms k v) = true
  | .nil, k, v, _, hv => by
      rw [objSnoc, wfO, wfO, Bool.and_eq_true]
      exact ⟨hv, rfl⟩
  | .cons k0 v0 tl, k, v, h, hv => by
      rw [objSnoc, wfO, Bool.and_eq_true]
      rw [wfO, Bool.and_eq_true] at h
      exact ⟨h.1, wfO_snoc tl k v h.2 hv⟩

/-- The appended entry sits at the last index. -/
theorem objNth_snoc_last : ∀ (ms : JObj) (k : List Nat) (v : JValue),
    objNth (objSnoc ms k v) (objLen ms) = some (k, v)
  | .nil, _, _ => rfl
  | .cons k0 v0 tl, k, v => by
      rw [objSnoc, objLen, objNth]
      exact objNth_snoc_last tl k v

/-- Erasing the appended last entry gives back the original object. -/
theorem objErase_snoc_last : ∀ (ms : JObj) (k : List Nat) (v : JValue),
    objEraseIdx (objSnoc ms k v) (objLen ms) = ms
  | .nil, _, _ => rfl
  | .cons k0 v0 tl, k, v => by
      rw [objSnoc, objLen, objEraseIdx, objErase_snoc_last tl k v]

/-- Erasing the only signature entry leaves no signature key behind. -/
theorem noSigKeys_erase : ∀ (ms : JObj) (j : Nat), noSigExcept ms j = true →
    noSigKeys (objEraseIdx ms j) = true
  | .nil, _, _ => rfl
  | .cons k v tl, 0, h => by
      rw [objEraseIdx]
      rw [noSigExcept] at h
      exact h
  | .cons k v tl, j+1, h => by
      rw [objEraseIdx, noSigKeys, Bool.and_eq_true]
      rw [noSigExcept, Bool.and_eq_true] at h
      exact ⟨h.1, noSigKeys_erase tl j h.2⟩

/-- Appending one signature entry to a signature-free object leaves it the
    only signature entry, at the last index. -/
theorem noSigExcept_snoc_last : ∀ (ms : JObj) (k : List Nat) (v : JValue),
    noSigKeys ms = true → noSigExcept (objSnoc ms k v) (objLen ms) = true
  | .nil, _, _, _ => rfl
  | .cons k0 v0 tl, k, v, h => by
      rw [objSnoc, objLen, noSigExcept, Bool.and_eq_true]
      rw [noSigKeys, Bool.and_eq_true] at h
      exact ⟨h.1, noSigExcept_snoc_last tl k v h.2⟩

/-- C8 (amended): for a parsed object whose single `signature` entry is a
    non-first field holding a nonempty base64-safe string, and whose stripped
    canonical encoding the legacy normalizer leaves unchanged, running
    `EncodePreserveOrder`, re-attaching the extracted signature, and running
    `EncodePreserveOrder` again yields identical unsigned bytes and identical
    signature both times. -/
theorem claim_C8 (l : List Nat) (ms : JObj) (j : Nat) (s : List Nat)
    (hparse : parse l = some (.obj ms))
    (hnth : objNth ms j = some (sigKeyBytes, .str s))
    (hj : 1 ≤ j)
    (hexc : noSigExcept ms j = true)
    (hs : s ≠ [])
    (hsb : s.all base64Byte = true)
    (hne : hasEscape (encVal (.obj (objEraseIdx ms j)) 0) = false) :
    EncodePreserveOrder l
        = .ok (encVal (.obj (objEraseIdx ms j)) 0, s) ∧
    EncodePreserveOrder
        (attachSig (encVal (.obj (objEraseIdx ms j)) 0) s)
        = .ok (encVal (.obj (objEraseIdx ms j)) 0, s) := by
  have hwf : wfO ms = true := by
    have h := parse_wf hparse
    rwa [wfV] at h
  have hle : l.isEmpty = false := by
    cases l with
    | nil =>
        rw [show parse ([] : List Nat) = none from rfl] at hparse
        cases hparse
    | cons a t => rfl
  have hrun1 : EncodePreserveOrder l
      = .ok (encVal (.obj (objEraseIdx ms j)) 0, s) := by
    rw [EncodePreserveOrder, hle, if_neg Bool.false_ne_true]
    simp only [hparse]
    rw [ExtractAndStrip]
    simp only [findSig_encObj hwf hnth hj hexc hs hsb]
    simp only [normalize_id_of_noEscape _ hne]
  refine ⟨hrun1, ?_⟩
  cases ms with
  | nil => rw [objNth] at hnth; cases hnth
  | cons k0 v0 tl =>
      cases j with
      | zero => omega
      | succ j2 =>
          simp only [objEraseIdx] at hne ⊢
          have hwfA : wfO (.cons k0 v0 (objEraseIdx tl j2)) = true := by
            have h := wfO_erase (.cons k0 v0 tl) (j2+1) hwf
            rwa [objEraseIdx] at h
          have hwfB : wfO (objSnoc (.cons k0 v0 (objEraseIdx tl j2))
              sigKeyBytes (.str s)) = true :=
            wfO_snoc _ _ _ hwfA rfl
          have hatt := attach_encObj k0 v0 (objEraseIdx tl j2) s hsb
          have hparse2 : parse (attachSig
                (encVal (.obj (.cons k0 v0 (objEraseIdx tl j2))) 0) s)
              = some (.obj (objSnoc (.cons k0 v0 (objEraseIdx tl j2))
                  sigKeyBytes (.str s))) := by
            rw [hatt]
            exact parse_enc _ (by rw [wfV]; exact hwfB)
          have hle2 : (attachSig
              (encVal (.obj (.cons k0 v0 (objEraseIdx tl j2))) 0) s).isEmpty
              = false := by
            rw [hatt, objSnoc, encObj_cons]
            rfl
          have hnthB := objNth_snoc_last (.cons k0 v0 (objEraseIdx tl j2))
            sigKeyBytes (.str s)
          have hjB : 1 ≤ objLen (.cons k0 v0 (objEraseIdx tl j2)) := by
            rw [objLen]; omega
          have hkeys : noSigKeys (.cons k0 v0 (objEraseIdx tl j2)) = true := by
            have h := noSigKeys_erase (.cons k0 v0 tl) (j2+1) hexc
            rwa [objEraseIdx] at h
          have hexcB := noSigExcept_snoc_last (.cons k0 v0 (objEraseIdx tl j2))
            sigKeyBytes (.str s) hkeys
          have hfind := findSig_encObj hwfB hnthB hjB hexcB hs hsb
          rw [objErase_snoc_last] at hfind
          rw [EncodePreserveOrder, hle2, if_neg Bool.false_ne_true]
          simp only [hparse2]
          rw [ExtractAndStrip]
          simp only [hfind]
          simp only [normalize_id_of_noEscape _ hne]

/-- C8 witness: the compact `TestExtractSignature` message, whose signature
    entry sits at index 1, round-trips with identical unsigned bytes. -/
theorem claim_C8_witness :
    EncodePreserveOrder extractInput
        = .ok (encVal (.obj (objEraseIdx (.cons fooBytes (.str testBytes)
            (.cons sigKeyBytes (.str testSignBytes) .nil)) 1)) 0, testSignBytes) ∧
    EncodePreserveOrder (attachSig (encVal (.obj (objEraseIdx (.cons fooBytes
            (.str testBytes) (.cons sigKeyBytes (.str testSignBytes) .nil)) 1)) 0)
          testSignBytes)
        = .ok (encVal (.obj (objEraseIdx (.cons fooBytes (.str testBytes)
            (.cons sigKeyBytes (.str testSignBytes) .nil)) 1)) 0, testSignBytes) :=
  claim_C8 extractInput
    (.cons fooBytes (.str testBytes) (.cons sigKeyBytes (.str testSignBytes) .nil))
    1 testSignBytes rfl rfl (by omega) rfl (by decide) (by decide) rfl

/-- C8 counterexample: on the message whose first field value is the text
    backslash-u-0-0-4-1, the first canonicalization succeeds and its unsigned
    bytes contain the shorter escape the normalizer produced; re-attaching the
    extracted signature to those bytes and canonicalizing again fails with
    `MalformedJSON`, so the unconditional round-trip property does not hold. -/
theorem claim_C8_counterexample :
    EncodePreserveOrder roundTripCounterInput
        = .ok ([0x7B, 0x0A, 0x20, 0x20, 0x22, 0x61, 0x22, 0x3A, 0x20, 0x22,
            0x5C, 0x41, 0x22, 0x0A, 0x7D], [0x61, 0x61]) ∧
    EncodePreserveOrder (attachSig [0x7B, 0x0A, 0x20, 0x20, 0x22, 0x61, 0x22,
            0x3A, 0x20, 0x22, 0x5C, 0x41, 0x22, 0x0A, 0x7D] [0x61, 0x61])
        = .error .MalformedJSON :=
  ⟨rfl, rfl⟩

end Ssb
